import Mathlib

set_option linter.dupNamespace false

/-!
# Renom — verification of the rename workflows

Shallow embedding of the Renom sources (`src/cli.rs`, `src/main.rs`,
`src/workflows/…`) together with proofs about the behaviour the
specification ascribes to them.

Modelling conventions:

* Rust `Result<T, String>` together with the possibility of a panic
  (`assert!`, `expect`, `unwrap`) is embedded as `RunResult`.
* An OS file name is an `OsName`: its byte content is abstracted by the
  `base` string, and `valid` records whether the name is valid Unicode
  (so `OsStr::to_str` succeeds).  Extension and stem splitting follows
  `Path::extension` / `Path::file_stem`: split at the last `.` provided
  the part before it is non-empty.
* A directory tree is an `FsEntry`; a directory listing is a
  `List FsEntry` in `read_dir` order.  Probes that take a project root
  receive `Option (List FsEntry)`: `none` models a path that is not an
  extant directory.
* `walkdir::WalkDir` is modelled by `walkEntry`, which yields the walk
  root first and then the contents depth-first, directories before their
  children, exactly as the default `WalkDir` iteration does.  The raw
  iterator item is `Except String WalkItem`, `Except.error` modelling an
  I/O error item.
-/

namespace Renom

/-- Outcome of running a piece of the Rust code: `Result::Ok`,
`Result::Err` (carrying the error string the code builds), or a panic
raised by `assert!`, `expect` or `unwrap`. -/
inductive RunResult (α : Type) where
  | ok (a : α)
  | err (msg : String)
  | panicked (msg : String)
deriving DecidableEq, Repr

/-- Sequencing of fallible Rust code (the `?` operator); a panic
propagates. -/
def RunResult.bind {α β : Type} : RunResult α → (α → RunResult β) → RunResult β
  | .ok a, f => f a
  | .err e, _ => .err e
  | .panicked m, _ => .panicked m

/-- Whether the run ended in `Result::Err`. -/
def RunResult.isErr {α : Type} : RunResult α → Bool
  | .err _ => true
  | _ => false

/-- Split a file name at its last `.`, provided the part before that dot
is non-empty; this is exactly the rule `std::path::Path` uses for
`file_stem` / `extension`. -/
def lastDotSplit (l : List Char) : Option (List Char × List Char) :=
  let revl := l.reverse
  let extRev := revl.takeWhile (· != '.')
  if extRev.length = revl.length then none
  else
    let stemRev := revl.drop (extRev.length + 1)
    if stemRev.isEmpty then none
    else some (stemRev.reverse, extRev.reverse)

/-- `Path::file_stem` on a file name (the whole name when there is no
extension). -/
def fileStemStr (s : String) : String :=
  match lastDotSplit s.toList with
  | none => s
  | some (st, _) => String.mk st

/-- `Path::extension` on a file name. -/
def extOfStr (s : String) : Option String :=
  (lastDotSplit s.toList).map (fun p => String.mk p.2)

/-- `Path::with_extension e` applied to a file name: the stem followed by
`"." ++ e`. -/
def withExtensionStr (s e : String) : String :=
  fileStemStr s ++ "." ++ e

/-- `str::strip_suffix`: `some` of the remaining head exactly when `suf`
is a suffix. -/
def stripSuffixCh (l suf : List Char) : Option (List Char) :=
  if suf.length ≤ l.length ∧ l.drop (l.length - suf.length) = suf then
    some (l.take (l.length - suf.length))
  else none

/-- `str::strip_suffix` on strings. -/
def stripSuffixStr (s suf : String) : Option String :=
  (stripSuffixCh s.toList suf.toList).map String.mk

/-- An OS file name: `base` abstracts the byte content (used for path
arithmetic such as extension splitting, which operates on bytes), and
`valid` records whether the name is valid Unicode, so that
`OsStr::to_str` returns `Some`. -/
structure OsName where
  base : String
  valid : Bool
deriving DecidableEq, Repr

/-- `OsStr::to_str` for a whole file name. -/
def OsName.toStr (n : OsName) : Option String :=
  if n.valid then some n.base else none

/-- `file_stem().to_str()` for a file name (the names we build carry
their Unicode validity as a single flag, which in particular covers the
stem). -/
def OsName.stemStr (n : OsName) : Option String :=
  if n.valid then some (fileStemStr n.base) else none

/-- `Path::extension` of a file name; works on the bytes, so it is
available even for names that are not valid Unicode. -/
def OsName.extn (n : OsName) : Option String :=
  extOfStr n.base

/-- Build a valid-Unicode file name. -/
def nm (s : String) : OsName := ⟨s, true⟩

/-- A node of the file-system tree: a file, or a directory with its
listing in `read_dir` order. -/
inductive FsEntry where
  | file (name : OsName)
  | dir (name : OsName) (entries : List FsEntry)

/-- The name of a directory entry. -/
def FsEntry.nameOf : FsEntry → OsName
  | .file n => n
  | .dir n _ => n

/-- `entry.path().extension().map_or(false, |ext| ext == "uproject")` —
the filter both `detect_project_name` and the root validators use. -/
def isUprojectEntry (e : FsEntry) : Bool :=
  e.nameOf.extn == some "uproject"

/-- Listing of the first directory named `s` among `entries` (models
`root.join(s)` followed by reading that directory). -/
def findDirNamed (entries : List FsEntry) (s : String) : Option (List FsEntry) :=
  entries.findSome? fun e =>
    match e with
    | .dir n es => if n.base == s then some es else none
    | .file _ => none

/-- The first entry (file or directory) named `s` (models existence of
the path `root.join(s)`). -/
def findEntryNamed (entries : List FsEntry) (s : String) : Option FsEntry :=
  entries.find? (fun e => e.nameOf.base == s)

/-- An item yielded by the `walkdir` walk: the path of the containing
directory (components relative to the project root), the entry's own
name, and whether it is a directory. -/
structure WalkItem where
  parent : List String
  name : OsName
  isDir : Bool
deriving DecidableEq, Repr

mutual

/-- Depth-first walk of one entry, the entry itself first — the default
`walkdir::WalkDir` iteration order. `parent` is the path of the
directory holding the entry. -/
def walkEntry (parent : List String) : FsEntry → List WalkItem
  | .file n => [⟨parent, n, false⟩]
  | .dir n es => ⟨parent, n, true⟩ :: walkEntries (parent ++ [n.base]) es

/-- Walk of a directory listing, in order. -/
def walkEntries (parent : List String) : List FsEntry → List WalkItem
  | [] => []
  | e :: es => walkEntry parent e ++ walkEntries parent es

end

/-- Modelled from the spec: `unreal::Plugin` is not among the provided
sources; §3 gives `Plugin` as `{ name: Identifier, root: path }`.  The
root path is kept as components relative to the project root. -/
structure Plugin where
  root : List String
  name : String
deriving DecidableEq, Repr

/-- Modelled from the spec: `unreal::Target` is not among the provided
sources; §3 gives `Target` as `{ name: Identifier, path }`.  The path is
kept as components relative to the project root. -/
structure Target where
  name : String
  path : List String
deriving DecidableEq, Repr

/-- `detect_project_name` (identical copies live in
`workflows/rename_project/mod.rs` and `workflows/rename_plugin/mod.rs`):
`assert!(project_root.is_dir())`, then the file stem of the first
`*.uproject` entry of the root listing; `expect` panics when there is
none, and a stem that is not valid Unicode is an error.  A `read_dir`
that succeeds entry-wise is assumed (the source drops per-entry errors
with `filter_map(Result::ok)`). -/
def detect_project_name (project_root : Option (List FsEntry)) : RunResult String :=
  match project_root with
  | none => .panicked "assertion failed: project_root.is_dir()"
  | some entries =>
    match entries.find? isUprojectEntry with
    | none => .panicked "project descriptor should exist"
    | some e =>
      match e.nameOf.stemStr with
      | none => .err "project name is not valid Unicode"
      | some name => .ok name

/-- `detect_project_targets` (`workflows/rename_target/mod.rs`):
`assert!(source_dir.is_dir())`, then every `read_dir` entry of `Source/`
whose name (if valid Unicode) ends in `.Target.cs`, the name being the
stripped prefix and the path `source_dir.join(name).with_extension("Target.cs")`. -/
def detect_project_targets (project_root : List FsEntry) : RunResult (List Target) :=
  match findDirNamed project_root "Source" with
  | none => .panicked "assertion failed: source_dir.is_dir()"
  | some es =>
    .ok (es.filterMap fun e =>
      (e.nameOf.toStr.bind fun s => stripSuffixStr s ".Target.cs").map
        fun target_name =>
          ⟨target_name, ["Source", withExtensionStr target_name "Target.cs"]⟩)

/-- The raw `WalkDir::new(project_root.join("Plugins"))` iterator: a
single error item when the path does not exist (in particular when the
project root itself is not a directory), otherwise the walk of the
`Plugins` entry. -/
def pluginsWalkStream (project_root : Option (List FsEntry)) :
    List (Except String WalkItem) :=
  match project_root with
  | none => [.error "IO error: No such file or directory"]
  | some entries =>
    match findEntryNamed entries "Plugins" with
    | none => [.error "IO error: No such file or directory"]
    | some e => (walkEntry [] e).map .ok

/-- The body of `detect_project_plugins` on the raw walk stream:
`filter_map(Result::ok)` drops error items, the rest is filtered by
`extension() == "uplugin"` and mapped to
`Plugin { root: parent, name: file_stem }`; `file_stem().to_str().unwrap()`
panics when a selected name is not valid Unicode. -/
def detect_plugins_from_stream (stream : List (Except String WalkItem)) :
    RunResult (List Plugin) :=
  let items := (stream.filterMap Except.toOption).filter
    fun it => it.name.extn == some "uplugin"
  if items.all fun it => it.name.valid then
    .ok (items.map fun it => ⟨it.parent, fileStemStr it.name.base⟩)
  else .panicked "called Option::unwrap on a None value"

/-- `detect_project_plugins` (`workflows/rename_plugin/mod.rs`). -/
def detect_project_plugins (project_root : Option (List FsEntry)) :
    RunResult (List Plugin) :=
  detect_plugins_from_stream (pluginsWalkStream project_root)

/-- Modelled from the spec: the transactional change engine
(`engine::Engine`, §4.4) is not among the provided sources.  A workflow
makes one `execute` call and, on its failure, at most one `revert` call;
the oracle records the outcomes the engine returns for them. -/
structure EngineOracle where
  executeResult : Except String Unit
  revertResult : Except String Unit

/-- `inquire::validator::Validation`: a prompt validator's verdict. -/
inductive Validation where
  | valid
  | invalid (reason : String)
deriving DecidableEq, Repr

/-- `char::is_whitespace` (the Unicode `White_Space` property), as used
by `str::trim`; by code point. -/
def rustIsWhitespace (c : Char) : Bool :=
  let v := c.toNat
  (9 ≤ v && v ≤ 13) || v == 32 || v == 133 || v == 160 || v == 0x1680 ||
    (0x2000 ≤ v && v ≤ 0x200A) || v == 0x2028 || v == 0x2029 ||
    v == 0x202F || v == 0x205F || v == 0x3000

/-- `str::trim`. -/
def rustTrim (l : List Char) : List Char :=
  ((l.dropWhile rustIsWhitespace).reverse.dropWhile rustIsWhitespace).reverse

/-- `str::len`: the UTF-8 byte length. -/
def rustStrLen (s : String) : Nat :=
  (s.toList.map Char.utf8Size).sum

/-- Membership in the character class `[_[[:alnum:]]]` of the identifier
regex, i.e. `_` (95), `A`–`Z` (65–90), `a`–`z` (97–122) or `0`–`9`
(48–57); the POSIX class `[[:alnum:]]` is ASCII-only. -/
def isIdentChar (c : Char) : Bool :=
  let v := c.toNat
  v == 95 || (65 ≤ v && v ≤ 90) || (97 ≤ v && v ≤ 122) || (48 ≤ v && v ≤ 57)

/-- `Regex::new("^[_[[:alnum:]]]*$").is_match`: anchored at both ends
(the Rust regex `$` matches only at the end of the haystack), so the
whole string must consist of identifier characters. -/
def identifierRegexMatch (s : String) : Bool :=
  s.toList.all isIdentChar

namespace rename_project

/-- `rename_project::Params`; the `project_root` path is modelled by the
directory listing found at it (`none`: not an extant directory). -/
structure Params where
  project_root : Option (List FsEntry)
  new_name : String

/-- `rename_project::validate_params`
(`workflows/rename_project/mod.rs`, lines 25–42). -/
def validate_params (params : Params) : RunResult Unit :=
  match params.project_root with
  | none => .err "project root must be a directory"
  | some entries =>
    if !(entries.any isUprojectEntry) then
      .err "project root must contain a project descriptor"
    else
      (detect_project_name params.project_root).bind fun project_name =>
        if project_name == params.new_name then
          .err "new name must be different than current project name"
        else .ok ()

/-- `rename_project::rename_project` (`workflows/rename_project/direct.rs`):
validate, gather context (`detect_project_name` again), generate the
changeset, create the backup dir, execute; on a failed execute, revert
and propagate the execute error (or the revert error if the revert also
failed).  The second component records whether `engine.execute` was
invoked. -/
def rename_project (params : Params) (engine : EngineOracle) :
    RunResult Unit × Bool :=
  match validate_params params with
  | .err e => (.err e, false)
  | .panicked m => (.panicked m, false)
  | .ok _ =>
    match detect_project_name params.project_root with
    | .err e => (.err e, false)
    | .panicked m => (.panicked m, false)
    | .ok _ =>
      match engine.executeResult with
      | .ok _ => (.ok (), true)
      | .error e =>
        match engine.revertResult with
        | .ok _ => (.err e, true)
        | .error e2 => (.err e2, true)

/-- `validate_target_name_is_not_empty`
(`workflows/rename_project/mod.rs`, lines 147–155). -/
def validate_target_name_is_not_empty (target_name : String) :
    Except String Validation :=
  if !(rustTrim target_name.toList).isEmpty then .ok .valid
  else .ok (.invalid "Target name must not be empty")

/-- `validate_target_name_is_concise`
(`workflows/rename_project/mod.rs`, lines 157–169): byte length at most 20. -/
def validate_target_name_is_concise (target_name : String) :
    Except String Validation :=
  if rustStrLen target_name ≤ 20 then .ok .valid
  else .ok (.invalid "Target name must not be longer than 20 characters")

/-- `validate_target_name_is_valid_identifier`
(`workflows/rename_project/mod.rs`, lines 171–183). -/
def validate_target_name_is_valid_identifier (target_name : String) :
    Except String Validation :=
  if identifierRegexMatch target_name then .ok .valid
  else .ok (.invalid
    "Target name must be comprised of alphanumeric characters and underscores only")

/-- Acceptance by the new-name validator chain of the project workflow
(`get_target_name_from_user`): every attached validator answers `Valid`. -/
def new_name_accepted (s : String) : Prop :=
  validate_target_name_is_not_empty s = .ok .valid ∧
  validate_target_name_is_concise s = .ok .valid ∧
  validate_target_name_is_valid_identifier s = .ok .valid

end rename_project

namespace rename_plugin

/-- `rename_plugin::Params`; the `project_root` path is modelled by the
directory listing found at it (`none`: not an extant directory). -/
structure Params where
  project_root : Option (List FsEntry)
  plugin : String
  new_name : String

/-- `rename_plugin::validate_params`
(`workflows/rename_plugin/mod.rs`, lines 79–82): the body is the
`// @todo` stub and returns `Ok(())` for every input. -/
def validate_params (_params : Params) : RunResult Unit :=
  .ok ()

/-- `rename_plugin::Context`, without the `project_root` field (carried
separately by the model). -/
structure Context where
  project_name : String
  project_plugins : List Plugin
  target_plugin : Plugin
  target_name : String

/-- `rename_plugin::gather_context`: probe the name and the plugins,
then select the plugin named by the params — `.find(…).unwrap()` panics
when it is absent. -/
def gather_context (params : Params) : RunResult Context :=
  (detect_project_name params.project_root).bind fun project_name =>
    (detect_project_plugins params.project_root).bind fun project_plugins =>
      match project_plugins.find? (fun pl => pl.name == params.plugin) with
      | none => .panicked "called Option::unwrap on a None value"
      | some target_plugin =>
        .ok ⟨project_name, project_plugins, target_plugin, params.new_name⟩

/-- `rename_plugin::rename_plugin`
(`workflows/rename_plugin/mod.rs`, lines 49–64): validate, gather,
generate changeset, create the backup dir, execute; on a failed execute,
log, `engine.revert()?`, print the failure message and `return Ok(())`. -/
def rename_plugin (params : Params) (engine : EngineOracle) : RunResult Unit :=
  (validate_params params).bind fun _ =>
    (gather_context params).bind fun _context =>
      match engine.executeResult with
      | .ok _ => .ok ()
      | .error _ =>
        match engine.revertResult with
        | .ok _ => .ok ()
        | .error e2 => .err e2

/-- `validate_target_name_is_not_empty`
(`workflows/rename_plugin/mod.rs`, lines 215–223). -/
def validate_target_name_is_not_empty (target_name : String) :
    Except String Validation :=
  if !(rustTrim target_name.toList).isEmpty then .ok .valid
  else .ok (.invalid "Target name must not be empty")

/-- `validate_target_name_is_concise`
(`workflows/rename_plugin/mod.rs`, lines 225–237): byte length at most 30. -/
def validate_target_name_is_concise (target_name : String) :
    Except String Validation :=
  if rustStrLen target_name ≤ 30 then .ok .valid
  else .ok (.invalid "Target name must not be longer than 30 characters")

/-- `validate_target_name_is_unique`
(`workflows/rename_plugin/mod.rs`, lines 239–250). -/
def validate_target_name_is_unique (target_name : String)
    (plugins : List Plugin) : Except String Validation :=
  if plugins.all fun plugin => plugin.name != target_name then .ok .valid
  else .ok (.invalid "Target name must not conflict with another plugin")

/-- `validate_target_name_is_valid_identifier`
(`workflows/rename_plugin/mod.rs`, lines 252–264). -/
def validate_target_name_is_valid_identifier (target_name : String) :
    Except String Validation :=
  if identifierRegexMatch target_name then .ok .valid
  else .ok (.invalid
    "Target name must be comprised of alphanumeric characters and underscores only")

/-- Acceptance by the string-intrinsic new-name validators of the plugin
workflow (uniqueness against the probed plugin set is the separate
validator above). -/
def new_name_accepted (s : String) : Prop :=
  validate_target_name_is_not_empty s = .ok .valid ∧
  validate_target_name_is_concise s = .ok .valid ∧
  validate_target_name_is_valid_identifier s = .ok .valid

end rename_plugin

namespace rename_target

/-- `rename_target::Params`. -/
structure Params where
  project_root : Option (List FsEntry)
  target : String
  new_name : String

/-- `rename_target::validate_params`
(`workflows/rename_target/mod.rs`, lines 75–78): the body is the
`// @todo` stub and returns `Ok(())` for every input. -/
def validate_params (_params : Params) : RunResult Unit :=
  .ok ()

/-- `rename_target::rename_target`
(`workflows/rename_target/mod.rs`, lines 46–61).  `gather_context` in
this workflow re-prompts the user interactively even on the direct path
(`// @todo`, lines 80–93); the outcome of that interactive gathering is
supplied as a collaborator result.  On a failed execute: log,
`engine.revert()?`, print the failure message and `return Ok(())`. -/
def rename_target (params : Params) (gathered : Except String Unit)
    (engine : EngineOracle) : RunResult Unit :=
  (validate_params params).bind fun _ =>
    match gathered with
    | .error e => .err e
    | .ok _ =>
      match engine.executeResult with
      | .ok _ => .ok ()
      | .error _ =>
        match engine.revertResult with
        | .ok _ => .ok ()
        | .error e2 => .err e2

/-- `validate_target_name_is_not_empty`
(`workflows/rename_target/mod.rs`, lines 181–189). -/
def validate_target_name_is_not_empty (target_name : String) :
    Except String Validation :=
  if !(rustTrim target_name.toList).isEmpty then .ok .valid
  else .ok (.invalid "Target name must not be empty")

/-- `validate_target_name_is_concise`
(`workflows/rename_target/mod.rs`, lines 191–203): byte length at most 30. -/
def validate_target_name_is_concise (target_name : String) :
    Except String Validation :=
  if rustStrLen target_name ≤ 30 then .ok .valid
  else .ok (.invalid "Target name must not be longer than 30 characters")

/-- `validate_target_name_is_unique`
(`workflows/rename_target/mod.rs`, lines 205–216). -/
def validate_target_name_is_unique (target_name : String)
    (targets : List Target) : Except String Validation :=
  if targets.all fun target => target.name != target_name then .ok .valid
  else .ok (.invalid "Target name must not conflict with another target")

/-- `validate_target_name_is_valid_identifier`
(`workflows/rename_target/mod.rs`, lines 218–230). -/
def validate_target_name_is_valid_identifier (target_name : String) :
    Except String Validation :=
  if identifierRegexMatch target_name then .ok .valid
  else .ok (.invalid
    "Target name must be comprised of alphanumeric characters and underscores only")

/-- Acceptance by the string-intrinsic new-name validators of the target
workflow. -/
def new_name_accepted (s : String) : Prop :=
  validate_target_name_is_not_empty s = .ok .valid ∧
  validate_target_name_is_concise s = .ok .valid ∧
  validate_target_name_is_valid_identifier s = .ok .valid

end rename_target

/-! ## Claim C1 -/

/-- A concrete project root: descriptor `P.uproject`, a `Source/`
directory with one target file, and one plugin `Alpha`. -/
def sampleRoot : List FsEntry :=
  [.file (nm "P.uproject"),
   .dir (nm "Source") [.file (nm "P.Target.cs")],
   .dir (nm "Plugins") [.dir (nm "Alpha") [.file (nm "Alpha.uplugin")]]]

/-- C1: the claim states that every direct-API workflow returns `Err`
whenever `engine.execute` fails, even when the revert succeeds.  The
code contradicts it: with a failing execute and a successful revert,
`rename_plugin` and `rename_target` return `Ok(())` (they only propagate
a *revert* error), while `rename_project` does return the execute
error. -/
theorem C1_failed_execute_with_successful_revert :
    rename_plugin.rename_plugin ⟨some sampleRoot, "Alpha", "Beta"⟩
      ⟨.error "disk full", .ok ()⟩ = RunResult.ok () ∧
    rename_target.rename_target ⟨some sampleRoot, "P", "Q"⟩ (.ok ())
      ⟨.error "disk full", .ok ()⟩ = RunResult.ok () ∧
    (rename_project.rename_project ⟨some sampleRoot, "Q"⟩
      ⟨.error "disk full", .ok ()⟩).1 = RunResult.err "disk full" := by
  refine ⟨rfl, rfl, rfl⟩

/-! ## Claim C2 -/

/-- C2: the claim states that the plugin and target `validate_params`
reject every `Params` whose project root is not an extant directory,
lacks a descriptor or a `Source/` directory, or names an absent entity.
The code contradicts it: both functions are the `// @todo` stub and
return `Ok(())` for every input, including invalid ones. -/
theorem C2_validate_params_is_a_stub :
    ∀ (p : rename_plugin.Params) (t : rename_target.Params),
      rename_plugin.validate_params p = RunResult.ok () ∧
      rename_target.validate_params t = RunResult.ok () := by
  intro p t
  exact ⟨rfl, rfl⟩

/-! ## Claim C3 -/

/-- C3: when the new name equals the current project name (the one
`detect_project_name` reports), `rename_project::validate_params`
returns exactly the error "new name must be different than current
project name", and `rename_project` returns that error with
`engine.execute` never invoked. -/
theorem C3_same_name_rejected_before_any_change
    (params : rename_project.Params) (engine : EngineOracle)
    (h : detect_project_name params.project_root = .ok params.new_name) :
    rename_project.validate_params params =
      RunResult.err "new name must be different than current project name" ∧
    rename_project.rename_project params engine =
      (RunResult.err "new name must be different than current project name",
        false) := by
  have hval : rename_project.validate_params params =
      RunResult.err "new name must be different than current project name" := by
    rcases hroot : params.project_root with _ | entries
    · rw [hroot] at h
      simp [detect_project_name] at h
    · rw [hroot] at h
      rcases hfind : entries.find? isUprojectEntry with _ | e
      · simp [detect_project_name, hfind] at h
      · have hany : entries.any isUprojectEntry = true :=
          List.any_eq_true.mpr
            ⟨e, List.mem_of_find?_eq_some hfind, List.find?_some hfind⟩
        simp [rename_project.validate_params, hroot, hany, h, RunResult.bind]
  exact ⟨hval, by simp only [rename_project.rename_project, hval]⟩

/-- Witness for C3 at a concrete root whose project is named `Code`. -/
theorem C3_witness :
    rename_project.validate_params
      ⟨some [.file (nm "Code.uproject")], "Code"⟩ =
      RunResult.err "new name must be different than current project name" ∧
    rename_project.rename_project ⟨some [.file (nm "Code.uproject")], "Code"⟩
      ⟨.ok (), .ok ()⟩ =
      (RunResult.err "new name must be different than current project name",
        false) :=
  C3_same_name_rejected_before_any_change
    ⟨some [.file (nm "Code.uproject")], "Code"⟩ ⟨.ok (), .ok ()⟩ (by decide)

/-! ## Claim C4 -/

/-- C4 counterexample: on a directory with no `*.uproject` entry,
`detect_project_name` does not return an error value — it panics
(`expect("project descriptor should exist")`), refuting the claim as
stated. -/
theorem C4_counterexample_missing_descriptor_panics :
    detect_project_name (some [.file (nm "README.md")]) =
      RunResult.panicked "project descriptor should exist" ∧
    RunResult.isErr (detect_project_name (some [.file (nm "README.md")])) =
      false := by
  refine ⟨rfl, rfl⟩

/-- C4 amended: `detect_project_name` returns the file stem of the first
`*.uproject` entry of the root; on a root directory with no `*.uproject`
entry it panics (it does not return an error), on a non-directory it
panics on the `is_dir` assertion, and for a descriptor whose stem is not
valid Unicode it returns the error "project name is not valid Unicode". -/
theorem C4_detect_project_name_behaviour (root : List FsEntry) :
    (root.find? isUprojectEntry = none →
      detect_project_name (some root) =
        RunResult.panicked "project descriptor should exist") ∧
    (∀ e, root.find? isUprojectEntry = some e →
      (e.nameOf.valid = false →
        detect_project_name (some root) =
          RunResult.err "project name is not valid Unicode") ∧
      (e.nameOf.valid = true →
        detect_project_name (some root) =
          RunResult.ok (fileStemStr e.nameOf.base))) ∧
    detect_project_name none =
      RunResult.panicked "assertion failed: project_root.is_dir()" := by
  refine ⟨fun hnone => by simp [detect_project_name, hnone],
    fun e he => ⟨fun hv => ?_, fun hv => ?_⟩, rfl⟩ <;>
    simp [detect_project_name, he, OsName.stemStr, hv]

/-- Witness for C4's amended statement: a valid descriptor yields its
stem, an invalid-Unicode one yields the error. -/
theorem C4_witness :
    detect_project_name (some [.file (nm "Code.uproject")]) =
      RunResult.ok "Code" ∧
    detect_project_name (some [.file ⟨"Bad.uproject", false⟩]) =
      RunResult.err "project name is not valid Unicode" :=
  ⟨((C4_detect_project_name_behaviour [.file (nm "Code.uproject")]).2.1
      (.file (nm "Code.uproject")) rfl).2 rfl,
    ((C4_detect_project_name_behaviour [.file ⟨"Bad.uproject", false⟩]).2.1
      (.file ⟨"Bad.uproject", false⟩) rfl).1 rfl⟩

/-! ## Claim C10 -/

/-- C10: when the project root has no `Plugins/` directory,
`detect_project_plugins` returns `Ok` with the empty list; error items
of the walk stream are silently dropped (`filter_map(Result::ok)`), and
the function never produces a `Result::Err`. -/
theorem C10_detect_plugins_total (root : List FsEntry) :
    (findDirNamed root "Plugins" = none →
      detect_project_plugins (some root) = RunResult.ok []) ∧
    (∀ stream : List (Except String WalkItem),
      RunResult.isErr (detect_plugins_from_stream stream) = false ∧
      detect_plugins_from_stream stream =
        detect_plugins_from_stream
          ((stream.filterMap Except.toOption).map Except.ok)) ∧
    (∀ project_root : Option (List FsEntry),
      RunResult.isErr (detect_project_plugins project_root) = false) := by
  have hsplit : ∀ stream : List (Except String WalkItem),
      RunResult.isErr (detect_plugins_from_stream stream) = false := by
    intro stream
    simp only [detect_plugins_from_stream]
    split <;> rfl
  refine ⟨fun h => ?_, fun stream => ⟨hsplit stream, ?_⟩,
    fun project_root => hsplit _⟩
  · rcases hent : findEntryNamed root "Plugins" with _ | e
    · simp [detect_project_plugins, pluginsWalkStream, hent,
        detect_plugins_from_stream, Except.toOption]
    · rcases e with n | ⟨n, es⟩
      · have hn : n.base = "Plugins" := by
          simpa [FsEntry.nameOf] using List.find?_some hent
        have hstream : pluginsWalkStream (some root) =
            [Except.ok ⟨[], n, false⟩] := by
          simp [pluginsWalkStream, hent, walkEntry]
        have hext : n.extn = none := by
          simp [OsName.extn, hn]
          rfl
        simp [detect_project_plugins, hstream, detect_plugins_from_stream,
          Except.toOption, hext]
      · exfalso
        have hmem := List.mem_of_find?_eq_some hent
        have hp : n.base == "Plugins" := by
          simpa [FsEntry.nameOf] using List.find?_some hent
        have := List.findSome?_eq_none_iff.mp h _ hmem
        simp [hp] at this
  · have hco : (Except.toOption ∘ (Except.ok : WalkItem → Except String WalkItem)) =
        (some : WalkItem → Option WalkItem) := rfl
    simp only [detect_plugins_from_stream, List.filterMap_map, hco,
      List.filterMap_some]

/-- Witness for C10 at a root with no `Plugins/` directory. -/
theorem C10_witness :
    detect_project_plugins (some [.file (nm "Code.uproject")]) =
      RunResult.ok [] :=
  (C10_detect_plugins_total [.file (nm "Code.uproject")]).1 rfl

/-! ## Claims C6 and C7: auxiliary lemmas and spec-side definitions -/

theorem stripSuffixCh_eq_some {l suf x : List Char} :
    stripSuffixCh l suf = some x ↔ l = x ++ suf := by
  unfold stripSuffixCh
  split
  case isTrue h =>
    simp only [Option.some.injEq]
    constructor
    · rintro rfl
      conv_lhs => rw [← List.take_append_drop (l.length - suf.length) l]
      rw [h.2]
    · rintro rfl
      have hlen : (x ++ suf).length - suf.length = x.length := by
        simp
      rw [hlen, List.take_left]
  case isFalse h =>
    constructor
    · intro hx
      exact Option.noConfusion hx
    · rintro rfl
      exact (h ⟨by simp, by simp [List.drop_left']⟩).elim

theorem stripSuffixStr_eq_some {s suf x : String} :
    stripSuffixStr s suf = some x ↔ s = x ++ suf := by
  unfold stripSuffixStr
  simp only [Option.map_eq_some', stripSuffixCh_eq_some]
  constructor
  · rintro ⟨a, ha, rfl⟩
    apply String.ext
    simpa using ha
  · rintro rfl
    exact ⟨x.toList, by simp, by
      apply String.ext
      rfl⟩

theorem fileStemStr_of_extOfStr_none {s : String} (h : extOfStr s = none) :
    fileStemStr s = s := by
  unfold fileStemStr
  unfold extOfStr at h
  rcases hsplit : lastDotSplit s.toList with _ | p
  · rfl
  · rw [hsplit] at h
    simp at h

/-- The `Target` value `detect_project_targets` builds for a stripped
name. -/
def mkTarget (target_name : String) : Target :=
  ⟨target_name, ["Source", withExtensionStr target_name "Target.cs"]⟩

/-- Number of `Source/` entries (files or directories) carrying the
valid-Unicode name `s`. -/
def countNamed (es : List FsEntry) (s : String) : Nat :=
  es.countP (fun e => e.nameOf.toStr == some s)

theorem withExtensionStr_of_extOfStr_none {s : String} (h : extOfStr s = none)
    (e : String) : withExtensionStr s e = s ++ "." ++ e := by
  unfold withExtensionStr
  rw [fileStemStr_of_extOfStr_none h]

/-- The per-entry mapping performed by `detect_project_targets`. -/
def targetOfEntry (e : FsEntry) : Option Target :=
  (e.nameOf.toStr.bind fun s => stripSuffixStr s ".Target.cs").map
    fun target_name => mkTarget target_name

theorem targetOfEntry_eq_some {e : FsEntry} {t : Target} :
    targetOfEntry e = some t ↔
      ∃ X, e.nameOf.toStr = some (X ++ ".Target.cs") ∧ t = mkTarget X := by
  unfold targetOfEntry
  simp only [Option.map_eq_some', Option.bind_eq_some,
    stripSuffixStr_eq_some]
  constructor
  · rintro ⟨X, ⟨s, hs, rfl⟩, rfl⟩
    exact ⟨X, hs, rfl⟩
  · rintro ⟨X, hs, rfl⟩
    exact ⟨X, ⟨X ++ ".Target.cs", hs, rfl⟩, rfl⟩

theorem mkTarget_inj {X Y : String} (h : mkTarget X = mkTarget Y) : X = Y := by
  simpa [mkTarget] using congrArg Target.name h

theorem count_filterMap_targetOfEntry (es : List FsEntry) (X : String) :
    (es.filterMap targetOfEntry).count (mkTarget X) =
      countNamed es (X ++ ".Target.cs") := by
  induction es with
  | nil => rfl
  | cons e es ih =>
    unfold countNamed
    rcases he : targetOfEntry e with _ | t
    · rw [List.filterMap_cons_none he, List.countP_cons_of_neg, ← countNamed, ih]
      simp only [beq_iff_eq]
      intro hname
      have : targetOfEntry e = some (mkTarget X) :=
        targetOfEntry_eq_some.mpr ⟨X, hname, rfl⟩
      rw [he] at this
      exact Option.noConfusion this
    · rw [List.filterMap_cons_some he, List.count_cons, List.countP_cons]
      rw [← countNamed, ih]
      congr 1
      obtain ⟨Y, hname, rfl⟩ := targetOfEntry_eq_some.mp he
      by_cases hXY : Y = X
      · subst hXY
        simp [hname]
      · have h2 : (e.nameOf.toStr == some (X ++ ".Target.cs")) = false := by
          simp only [beq_eq_false_iff_ne, ne_eq, hname, Option.some.injEq]
          intro hc
          apply hXY
          apply String.ext
          have hdata := congrArg String.data hc
          simp only [String.data_append] at hdata
          exact List.append_cancel_right hdata
        have hne : ¬ mkTarget Y = mkTarget X := fun hc => hXY (mkTarget_inj hc)
        simp [h2, hne]

theorem string_append_dot_assoc (X e : String) :
    X ++ "." ++ e = X ++ ("." ++ e) := by
  apply String.ext
  simp [String.data_append]

/-! ## Claim C6 -/

/-- C6 counterexample: for the file `A.B.Target.cs` directly under
`Source/`, the returned `Target` has name `A.B` but — because the path
is rebuilt with `with_extension("Target.cs")`, which replaces the `.B`
extension of `A.B` — its path is `Source/A.Target.cs`, not
`Source/A.B.Target.cs` as the claim states. -/
theorem C6_counterexample_dotted_target_name :
    detect_project_targets
      [.dir (nm "Source") [.file (nm "A.B.Target.cs")]] =
      RunResult.ok [⟨"A.B", ["Source", "A.Target.cs"]⟩] ∧
    (["Source", "A.Target.cs"] : List String) ≠
      ["Source", "A.B" ++ ".Target.cs"] := by
  refine ⟨rfl, by decide⟩

/-- C6 amended: for every entry (file or directory, with valid-Unicode
name) named `X.Target.cs` directly under `Source/`,
`detect_project_targets` returns exactly one `Target` whose name is `X`
and whose path is `Source/` followed by `X` with its extension replaced
by `Target.cs`; that path equals `Source/X.Target.cs` exactly when `X`
has no extension of its own (in particular for every dot-free `X`), and
nothing else is returned. -/
theorem C6_detect_targets_behaviour (root : List FsEntry)
    (es : List FsEntry) (h : findDirNamed root "Source" = some es) :
    ∃ l, detect_project_targets root = RunResult.ok l ∧
      (∀ X : String, l.count (mkTarget X) = countNamed es (X ++ ".Target.cs")) ∧
      (∀ t ∈ l, ∃ X, t = mkTarget X ∧
        0 < countNamed es (X ++ ".Target.cs")) ∧
      (∀ X : String, extOfStr X = none →
        (mkTarget X).path = ["Source", X ++ ".Target.cs"]) := by
  have hdet : detect_project_targets root =
      RunResult.ok (es.filterMap targetOfEntry) := by
    simp only [detect_project_targets, h]
    rfl
  refine ⟨es.filterMap targetOfEntry, hdet,
    fun X => count_filterMap_targetOfEntry es X, fun t ht => ?_, fun X hX => ?_⟩
  · obtain ⟨e, he, hfe⟩ := List.mem_filterMap.mp ht
    obtain ⟨X, hname, rfl⟩ := targetOfEntry_eq_some.mp hfe
    refine ⟨X, rfl, List.countP_pos_iff.mpr ⟨e, he, ?_⟩⟩
    simp [hname]
  · show ["Source", withExtensionStr X "Target.cs"] = _
    rw [withExtensionStr_of_extOfStr_none hX, string_append_dot_assoc]
    have hlit : ("." ++ "Target.cs" : String) = ".Target.cs" := by decide
    rw [hlit]

/-- Witness for C6's amended statement at a `Source/` directory holding
`Game.Target.cs` and an unrelated `readme.txt`. -/
theorem C6_witness :
    ∃ l, detect_project_targets
        [.dir (nm "Source") [.file (nm "Game.Target.cs"),
          .file (nm "readme.txt")]] = RunResult.ok l ∧
      (∀ X : String, l.count (mkTarget X) =
        countNamed [.file (nm "Game.Target.cs"), .file (nm "readme.txt")]
          (X ++ ".Target.cs")) ∧
      (∀ t ∈ l, ∃ X, t = mkTarget X ∧
        0 < countNamed [.file (nm "Game.Target.cs"), .file (nm "readme.txt")]
          (X ++ ".Target.cs")) ∧
      (∀ X : String, extOfStr X = none →
        (mkTarget X).path = ["Source", X ++ ".Target.cs"]) :=
  C6_detect_targets_behaviour
    [.dir (nm "Source") [.file (nm "Game.Target.cs"), .file (nm "readme.txt")]]
    [.file (nm "Game.Target.cs"), .file (nm "readme.txt")] rfl

/-! ## Claim C7 -/

/-- The walk items of `Plugins/` that survive `filter_map(Result::ok)`. -/
def pluginsWalkItems (project_root : Option (List FsEntry)) : List WalkItem :=
  (pluginsWalkStream project_root).filterMap Except.toOption

/-- The walk items that are `*.uplugin` *files*, which is what the claim
quantifies over. -/
def upluginFileItems (project_root : Option (List FsEntry)) : List WalkItem :=
  (pluginsWalkItems project_root).filter
    fun it => !it.isDir && (it.name.extn == some "uplugin")

/-- C7 counterexample: a project whose `Plugins/` holds a single empty
*directory* named `Fake.uplugin` and no `*.uplugin` file at all; the
extension-only filter still returns it, so `detect_project_plugins`
returns an entry that corresponds to no `*.uplugin` file, refuting
"it returns no other entries". -/
theorem C7_counterexample_directory_counted_as_plugin :
    upluginFileItems
      (some [.dir (nm "Plugins") [.dir (nm "Fake.uplugin") []]]) = [] ∧
    detect_project_plugins
      (some [.dir (nm "Plugins") [.dir (nm "Fake.uplugin") []]]) =
      RunResult.ok [⟨["Plugins"], "Fake"⟩] := by
  refine ⟨rfl, rfl⟩

/-- C7 amended: provided every `uplugin`-extension walk entry has a
valid-Unicode name, `detect_project_plugins` returns one `Plugin` per
walk entry — file *or directory* — whose name has extension `uplugin`,
at any nesting depth under `Plugins/`, with the entry's parent directory
as root and the entry's stem as name, and nothing else. -/
theorem C7_detect_plugins_behaviour (project_root : Option (List FsEntry))
    (hvalid : ∀ it ∈ pluginsWalkItems project_root,
      it.name.extn = some "uplugin" → it.name.valid = true) :
    ∃ l, detect_project_plugins project_root = RunResult.ok l ∧
      (∀ pl, pl ∈ l ↔ ∃ it ∈ pluginsWalkItems project_root,
        it.name.extn = some "uplugin" ∧
        pl = ⟨it.parent, fileStemStr it.name.base⟩) ∧
      l.length = (pluginsWalkItems project_root).countP
        (fun it => it.name.extn == some "uplugin") := by
  have hall : ((pluginsWalkItems project_root).filter
      fun it => it.name.extn == some "uplugin").all
        (fun it => it.name.valid) = true := by
    rw [List.all_eq_true]
    intro it hit
    have hmem := List.mem_filter.mp hit
    exact hvalid it hmem.1 (by simpa using hmem.2)
  have hdet : detect_project_plugins project_root =
      RunResult.ok (((pluginsWalkItems project_root).filter
        fun it => it.name.extn == some "uplugin").map
          fun it => ⟨it.parent, fileStemStr it.name.base⟩) := by
    have hs : List.filterMap Except.toOption (pluginsWalkStream project_root) =
        pluginsWalkItems project_root := rfl
    simp only [detect_project_plugins, detect_plugins_from_stream, hs, hall,
      if_true]
  refine ⟨_, hdet, fun pl => ?_, by simp [List.countP_eq_length_filter]⟩
  simp only [List.mem_map, List.mem_filter]
  constructor
  · rintro ⟨it, ⟨hmem, hext⟩, rfl⟩
    exact ⟨it, hmem, by simpa using hext, rfl⟩
  · rintro ⟨it, hmem, hext, rfl⟩
    exact ⟨it, ⟨hmem, by simpa using hext⟩, rfl⟩

/-- Witness for C7's amended statement at a doubly nested plugin
`Plugins/Group/Alpha/Alpha.uplugin`. -/
theorem C7_witness :
    ∃ l, detect_project_plugins
        (some [.dir (nm "Plugins")
          [.dir (nm "Group") [.dir (nm "Alpha") [.file (nm "Alpha.uplugin")]]]]) =
        RunResult.ok l ∧
      (∀ pl, pl ∈ l ↔ ∃ it ∈ pluginsWalkItems
          (some [.dir (nm "Plugins")
            [.dir (nm "Group") [.dir (nm "Alpha") [.file (nm "Alpha.uplugin")]]]]),
        it.name.extn = some "uplugin" ∧
        pl = ⟨it.parent, fileStemStr it.name.base⟩) ∧
      l.length = (pluginsWalkItems
          (some [.dir (nm "Plugins")
            [.dir (nm "Group") [.dir (nm "Alpha") [.file (nm "Alpha.uplugin")]]]])).countP
        (fun it => it.name.extn == some "uplugin") :=
  C7_detect_plugins_behaviour
    (some [.dir (nm "Plugins")
      [.dir (nm "Group") [.dir (nm "Alpha") [.file (nm "Alpha.uplugin")]]]])
    (by decide)

/-! ## Claims C5 and C8: validator characterisation -/

/-- Spec-side reading of the identifier rule `^[A-Za-z0-9_]+$` on a
single character, by code point: `_` (95), `A`–`Z` (65–90), `a`–`z`
(97–122), `0`–`9` (48–57). -/
def specIsIdentifierChar (c : Char) : Prop :=
  c.toNat = 95 ∨ (65 ≤ c.toNat ∧ c.toNat ≤ 90) ∨
    (97 ≤ c.toNat ∧ c.toNat ≤ 122) ∨ (48 ≤ c.toNat ∧ c.toNat ≤ 57)

/-- Spec-side reading of "non-empty string matching `^[A-Za-z0-9_]+$`". -/
def specMatchesIdentifier (s : String) : Prop :=
  s ≠ "" ∧ ∀ c ∈ s.toList, specIsIdentifierChar c

theorem isIdentChar_iff {c : Char} :
    isIdentChar c = true ↔ specIsIdentifierChar c := by
  unfold isIdentChar specIsIdentifierChar
  simp
  tauto

theorem not_whitespace_of_isIdentChar {c : Char}
    (h : isIdentChar c = true) : rustIsWhitespace c = false := by
  unfold isIdentChar at h
  unfold rustIsWhitespace
  simp only [Bool.or_eq_true, Bool.and_eq_true, beq_iff_eq,
    decide_eq_true_eq] at h
  simp only [Bool.or_eq_false_iff, Bool.and_eq_false_iff, beq_eq_false_iff_ne,
    ne_eq, decide_eq_false_iff_not]
  omega

theorem utf8Size_eq_one_of_ascii {c : Char} (h : c.toNat ≤ 127) :
    c.utf8Size = 1 := by
  unfold Char.utf8Size
  rw [if_pos]
  rw [UInt32.le_def, BitVec.le_def]
  exact h

theorem utf8Size_one_of_isIdentChar {c : Char} (h : isIdentChar c = true) :
    c.utf8Size = 1 := by
  apply utf8Size_eq_one_of_ascii
  unfold isIdentChar at h
  simp only [Bool.or_eq_true, Bool.and_eq_true, beq_iff_eq,
    decide_eq_true_eq] at h
  omega

theorem sum_utf8Size_eq_length {l : List Char}
    (h : ∀ c ∈ l, Char.utf8Size c = 1) :
    (l.map Char.utf8Size).sum = l.length := by
  induction l with
  | nil => rfl
  | cons c t ih =>
    simp only [List.map_cons, List.sum_cons, List.length_cons,
      h c (List.mem_cons_self c t),
      ih fun x hx => h x (List.mem_cons_of_mem _ hx)]
    omega

theorem rustTrim_eq_self {l : List Char}
    (h : ∀ c ∈ l, rustIsWhitespace c = false) : rustTrim l = l := by
  unfold rustTrim
  have h1 : l.dropWhile rustIsWhitespace = l := by
    cases l with
    | nil => rfl
    | cons c t =>
      rw [List.dropWhile_cons_of_neg]
      simp [h c (List.mem_cons_self c t)]
  rw [h1]
  have h2 : l.reverse.dropWhile rustIsWhitespace = l.reverse := by
    cases hrev : l.reverse with
    | nil => rfl
    | cons c t =>
      rw [List.dropWhile_cons_of_neg]
      have hc : c ∈ l := by
        rw [← List.mem_reverse, hrev]
        exact List.mem_cons_self c t
      simp [h c hc]
  rw [h2, List.reverse_reverse]

theorem ite_ok_valid_iff {c : Prop} [Decidable c] {r : String} :
    (if c then Except.ok Validation.valid
      else Except.ok (Validation.invalid r)) =
      Except.ok (ε := String) Validation.valid ↔ c := by
  by_cases h : c <;> simp [h]

theorem toList_ne_nil_of_ne_empty {s : String} (h : s ≠ "") :
    s.toList ≠ [] := by
  intro hc
  exact h (by apply String.ext; simpa using hc)

/-- The three string-intrinsic conditions a candidate must pass, as the
code computes them, are equivalent to the spec-side reading: non-empty,
every character in `[A-Za-z0-9_]`, and at most `cap` characters. -/
theorem new_name_conditions_iff (s : String) (cap : Nat) :
    ((!(rustTrim s.toList).isEmpty) = true ∧ rustStrLen s ≤ cap ∧
      identifierRegexMatch s = true) ↔
    (specMatchesIdentifier s ∧ s.length ≤ cap) := by
  constructor
  · rintro ⟨hne, hlen, hreg⟩
    have hchars : ∀ c ∈ s.toList, isIdentChar c = true :=
      fun c hc => List.all_eq_true.mp hreg c hc
    have hnil : s ≠ "" := by
      rintro rfl
      simp [rustTrim] at hne
    refine ⟨⟨hnil, fun c hc => isIdentChar_iff.mp (hchars c hc)⟩, ?_⟩
    have hbytes : rustStrLen s = s.length := by
      unfold rustStrLen
      rw [sum_utf8Size_eq_length fun c hc =>
        utf8Size_one_of_isIdentChar (hchars c hc)]
      rfl
    omega
  · rintro ⟨⟨hnil, hchars⟩, hlen⟩
    have hident : ∀ c ∈ s.toList, isIdentChar c = true :=
      fun c hc => isIdentChar_iff.mpr (hchars c hc)
    refine ⟨?_, ?_, List.all_eq_true.mpr hident⟩
    · have htrim : rustTrim s.toList = s.toList :=
        rustTrim_eq_self fun c hc => not_whitespace_of_isIdentChar (hident c hc)
      rw [htrim]
      simpa using toList_ne_nil_of_ne_empty hnil
    · have hbytes : rustStrLen s = s.length := by
        unfold rustStrLen
        rw [sum_utf8Size_eq_length fun c hc =>
          utf8Size_one_of_isIdentChar (hident c hc)]
        rfl
      omega

/-- C5: the combined string-intrinsic new-name validators accept a
candidate exactly when it is non-empty, matches `^[A-Za-z0-9_]+$`, and
has at most 20 characters for a project rename resp. 30 for a plugin or
target rename; every violating string is reported `Invalid` by some
validator. -/
theorem C5_new_name_validators (s : String) :
    (rename_project.new_name_accepted s ↔
      specMatchesIdentifier s ∧ s.length ≤ 20) ∧
    (rename_plugin.new_name_accepted s ↔
      specMatchesIdentifier s ∧ s.length ≤ 30) ∧
    (rename_target.new_name_accepted s ↔
      specMatchesIdentifier s ∧ s.length ≤ 30) := by
  have hproj : rename_project.new_name_accepted s ↔
      ((!(rustTrim s.toList).isEmpty) = true ∧ rustStrLen s ≤ 20 ∧
        identifierRegexMatch s = true) := by
    unfold rename_project.new_name_accepted
      rename_project.validate_target_name_is_not_empty
      rename_project.validate_target_name_is_concise
      rename_project.validate_target_name_is_valid_identifier
    simp only [ite_ok_valid_iff]
  have hplug : rename_plugin.new_name_accepted s ↔
      ((!(rustTrim s.toList).isEmpty) = true ∧ rustStrLen s ≤ 30 ∧
        identifierRegexMatch s = true) := by
    unfold rename_plugin.new_name_accepted
      rename_plugin.validate_target_name_is_not_empty
      rename_plugin.validate_target_name_is_concise
      rename_plugin.validate_target_name_is_valid_identifier
    simp only [ite_ok_valid_iff]
  have htarg : rename_target.new_name_accepted s ↔
      ((!(rustTrim s.toList).isEmpty) = true ∧ rustStrLen s ≤ 30 ∧
        identifierRegexMatch s = true) := by
    unfold rename_target.new_name_accepted
      rename_target.validate_target_name_is_not_empty
      rename_target.validate_target_name_is_concise
      rename_target.validate_target_name_is_valid_identifier
    simp only [ite_ok_valid_iff]
  exact ⟨hproj.trans (new_name_conditions_iff s 20),
    hplug.trans (new_name_conditions_iff s 30),
    htarg.trans (new_name_conditions_iff s 30)⟩

theorem validator_shape {c : Prop} [Decidable c] (r : String) :
    ∃ v, (if c then Except.ok Validation.valid
        else Except.ok (Validation.invalid r)) =
        Except.ok (ε := String) v ∧
      (v = Validation.valid ∨ ∃ msg, v = Validation.invalid msg) := by
  by_cases h : c
  · exact ⟨.valid, by simp [h], Or.inl rfl⟩
  · exact ⟨.invalid r, by simp [h], Or.inr ⟨r, rfl⟩⟩

/-- C8: every new-name validator — not-empty, concise, unique,
valid-identifier, in all three workflows — is total: for every candidate
(and any probed entity list) it returns `Ok` carrying either `Valid` or
`Invalid` with a reason; the `Err` branch of the `CustomUserError`
result type is never produced and no path panics. -/
theorem C8_validators_total (s : String) (plugins : List Plugin)
    (targets : List Target) :
    (∃ v, rename_project.validate_target_name_is_not_empty s =
        Except.ok v ∧
      (v = Validation.valid ∨ ∃ msg, v = Validation.invalid msg)) ∧
    (∃ v, rename_project.validate_target_name_is_concise s = Except.ok v ∧
      (v = Validation.valid ∨ ∃ msg, v = Validation.invalid msg)) ∧
    (∃ v, rename_project.validate_target_name_is_valid_identifier s =
        Except.ok v ∧
      (v = Validation.valid ∨ ∃ msg, v = Validation.invalid msg)) ∧
    (∃ v, rename_plugin.validate_target_name_is_not_empty s = Except.ok v ∧
      (v = Validation.valid ∨ ∃ msg, v = Validation.invalid msg)) ∧
    (∃ v, rename_plugin.validate_target_name_is_concise s = Except.ok v ∧
      (v = Validation.valid ∨ ∃ msg, v = Validation.invalid msg)) ∧
    (∃ v, rename_plugin.validate_target_name_is_unique s plugins =
        Except.ok v ∧
      (v = Validation.valid ∨ ∃ msg, v = Validation.invalid msg)) ∧
    (∃ v, rename_plugin.validate_target_name_is_valid_identifier s =
        Except.ok v ∧
      (v = Validation.valid ∨ ∃ msg, v = Validation.invalid msg)) ∧
    (∃ v, rename_target.validate_target_name_is_not_empty s = Except.ok v ∧
      (v = Validation.valid ∨ ∃ msg, v = Validation.invalid msg)) ∧
    (∃ v, rename_target.validate_target_name_is_concise s = Except.ok v ∧
      (v = Validation.valid ∨ ∃ msg, v = Validation.invalid msg)) ∧
    (∃ v, rename_target.validate_target_name_is_unique s targets =
        Except.ok v ∧
      (v = Validation.valid ∨ ∃ msg, v = Validation.invalid msg)) ∧
    (∃ v, rename_target.validate_target_name_is_valid_identifier s =
        Except.ok v ∧
      (v = Validation.valid ∨ ∃ msg, v = Validation.invalid msg)) :=
  ⟨validator_shape _, validator_shape _, validator_shape _,
    validator_shape _, validator_shape _, validator_shape _,
    validator_shape _, validator_shape _, validator_shape _,
    validator_shape _, validator_shape _⟩

/-! ## Claim C9: the CLI argument parser (`src/cli.rs`) -/

/-- `cli::Command`. -/
inductive Command where
  | renameProject
  | renamePlugin
  | renameTarget
  | renameModule
  | wizard
deriving DecidableEq, Repr

/-- The subcommand a token denotes, if any (`Command::from_str` on the
tokens the parser's first match arm recognises). -/
def subcommandOf? (s : String) : Option Command :=
  if s == "rename-project" then some .renameProject
  else if s == "rename-plugin" then some .renamePlugin
  else if s == "rename-target" then some .renameTarget
  else if s == "rename-module" then some .renameModule
  else if s == "wizard" then some .wizard
  else none

/-- The tokens of the parser's value-taking option arm. -/
def isValuedOpt (s : String) : Bool :=
  s == "--project" || s == "--plugin" || s == "--module" ||
    s == "--target" || s == "--new-name"

/-- The tokens of the parser's flag arm. -/
def isFlagOpt (s : String) : Bool :=
  s == "--help" || s == "--version"

/-- The `HashMap<String, Option<String>>` of collected options, as an
association list in insertion order. -/
abbrev OptionsMap := List (String × Option String)

/-- `HashMap::contains_key`. -/
def hmContainsKey (m : OptionsMap) (k : String) : Bool :=
  m.any (fun kv => kv.1 == k)

/-- `HashMap::insert` (replaces the value when the key is present). -/
def hmInsert (m : OptionsMap) (k : String) (v : Option String) : OptionsMap :=
  if hmContainsKey m k then
    m.map (fun kv => if kv.1 == k then (k, v) else kv)
  else m ++ [(k, v)]

/-- `HashMap::get` (`options[k]`). -/
def hmLookup (m : OptionsMap) (k : String) : Option (Option String) :=
  (m.find? (fun kv => kv.1 == k)).map (fun kv => kv.2)

/-- `cli::validate_base_command_options`. -/
def validate_base_command_options (options : OptionsMap) : Except String Unit :=
  match options.find? (fun kv => !(kv.1 == "--help" || kv.1 == "--version")) with
  | some kv => .error ("option " ++ kv.1 ++ " is not supported for this operation")
  | none =>
    if !hmContainsKey options "--help" && !hmContainsKey options "--version" then
      .error "--help, --version, or command must be specified"
    else .ok ()

/-- `cli::validate_rename_project_options`. -/
def validate_rename_project_options (options : OptionsMap) :
    Except String Unit :=
  if !hmContainsKey options "--project" then
    .error "--project must be specified"
  else if !hmContainsKey options "--new-name" then
    .error "--new-name must be specified"
  else
    match options.find?
        (fun kv => !(kv.1 == "--project" || kv.1 == "--new-name")) with
    | some kv =>
      .error ("option " ++ kv.1 ++ " is not supported for this operation")
    | none => .ok ()

/-- `cli::validate_rename_plugin_options`. -/
def validate_rename_plugin_options (options : OptionsMap) :
    Except String Unit :=
  if !hmContainsKey options "--project" then
    .error "--project must be specified"
  else if !hmContainsKey options "--plugin" then
    .error "--plugin must be specified"
  else if !hmContainsKey options "--new-name" then
    .error "--new-name must be specified"
  else
    match options.find? (fun kv =>
        !(kv.1 == "--project" || kv.1 == "--plugin" || kv.1 == "--new-name")) with
    | some kv =>
      .error ("option " ++ kv.1 ++ " is not supported for this operation")
    | none => .ok ()

/-- `cli::validate_rename_module_options`. -/
def validate_rename_module_options (options : OptionsMap) :
    Except String Unit :=
  if !hmContainsKey options "--project" then
    .error "--project must be specified"
  else if !hmContainsKey options "--module" then
    .error "--module must be specified"
  else if !hmContainsKey options "--new-name" then
    .error "--new-name must be specified"
  else
    match options.find? (fun kv =>
        !(kv.1 == "--project" || kv.1 == "--module" || kv.1 == "--new-name")) with
    | some kv =>
      .error ("option " ++ kv.1 ++ " is not supported for this operation")
    | none => .ok ()

/-- `cli::validate_rename_target_options`. -/
def validate_rename_target_options (options : OptionsMap) :
    Except String Unit :=
  if !hmContainsKey options "--project" then
    .error "--project must be specified"
  else if !hmContainsKey options "--target" then
    .error "--target must be specified"
  else if !hmContainsKey options "--new-name" then
    .error "--new-name must be specified"
  else
    match options.find? (fun kv =>
        !(kv.1 == "--project" || kv.1 == "--target" || kv.1 == "--new-name")) with
    | some kv =>
      .error ("option " ++ kv.1 ++ " is not supported for this operation")
    | none => .ok ()

/-- `cli::validate_wizard_options`. -/
def validate_wizard_options (options : OptionsMap) : Except String Unit :=
  match options with
  | [] => .ok ()
  | kv :: _ =>
    .error ("option " ++ kv.1 ++ " is not supported for this operation")

/-- The final dispatch of `parse_args` on the collected command. -/
def validate_command_options : Option Command → OptionsMap → Except String Unit
  | none, options => validate_base_command_options options
  | some .renameProject, options => validate_rename_project_options options
  | some .renamePlugin, options => validate_rename_plugin_options options
  | some .renameTarget, options => validate_rename_target_options options
  | some .renameModule, options => validate_rename_module_options options
  | some .wizard, options => validate_wizard_options options

/-- After the token loop: dispatch the per-command option validation and
wrap its verdict as `parse_args` does. -/
def finishParse (command : Option Command) (options : OptionsMap) :
    Except (Option Command × String) (Option Command × OptionsMap) :=
  match validate_command_options command options with
  | .ok _ => .ok (command, options)
  | .error e => .error (command, e)

/-- The token loop of `cli::parse_args`, carrying the current command
and options state exactly as the source's mutable locals do.  The
source's `comm @ ("rename-project" | …)` match arm is rendered as the
ordered comparisons against the same five literals, each followed by the
arm's body with `comm.parse().unwrap()` resolved. -/
def parseLoop : List String → Option Command → OptionsMap →
    Except (Option Command × String) (Option Command × OptionsMap)
  | [], command, options => finishParse command options
  | arg :: rest, command, options =>
    if arg == "rename-project" then
      if command.isSome then
        .error (none, "command cannot be specified more than once")
      else parseLoop rest (some .renameProject) options
    else if arg == "rename-plugin" then
      if command.isSome then
        .error (none, "command cannot be specified more than once")
      else parseLoop rest (some .renamePlugin) options
    else if arg == "rename-target" then
      if command.isSome then
        .error (none, "command cannot be specified more than once")
      else parseLoop rest (some .renameTarget) options
    else if arg == "rename-module" then
      if command.isSome then
        .error (none, "command cannot be specified more than once")
      else parseLoop rest (some .renameModule) options
    else if arg == "wizard" then
      if command.isSome then
        .error (none, "command cannot be specified more than once")
      else parseLoop rest (some .wizard) options
    else if isValuedOpt arg then
      if hmContainsKey options arg then
        .error (command,
          "option " ++ arg ++ " cannot be specified more than once")
      else
        match rest with
        | [] => .error (command, "missing argument for option " ++ arg)
        | optArg :: rest2 =>
          parseLoop rest2 command (hmInsert options arg (some optArg))
    else if isFlagOpt arg then
      parseLoop rest command (hmInsert options arg none)
    else .error (command, "unknown argument provided: " ++ arg)

/-- `cli::parse_args`: skip the program name, run the loop from the
empty state, and validate the options against the collected command. -/
def parse_args (args : List String) :
    Except (Option Command × String) (Option Command × OptionsMap) :=
  parseLoop (args.drop 1) none []

/-- Spec-side tally of an argument list read greedily as chunks: a
subcommand token, or a known value-taking option together with the
following token, or a flag; `bad` records an unknown token or a
trailing value-taking option with no argument. -/
structure ChunkStats where
  rpCount : Nat
  otherSubCount : Nat
  projArgs : List String
  newNameArgs : List String
  otherOptCount : Nat
  bad : Bool
deriving DecidableEq, Repr

/-- Greedy chunk tally of a token list (spec side, following the
claim's reading of the grammar). -/
def scanChunks : List String → ChunkStats
  | [] => ⟨0, 0, [], [], 0, false⟩
  | arg :: rest =>
    if subcommandOf? arg = some .renameProject then
      { scanChunks rest with rpCount := (scanChunks rest).rpCount + 1 }
    else if (subcommandOf? arg).isSome then
      { scanChunks rest with
          otherSubCount := (scanChunks rest).otherSubCount + 1 }
    else if isValuedOpt arg then
      match rest with
      | [] => ⟨0, 0, [], [], 0, true⟩
      | optArg :: rest2 =>
        if arg == "--project" then
          { scanChunks rest2 with
              projArgs := optArg :: (scanChunks rest2).projArgs }
        else if arg == "--new-name" then
          { scanChunks rest2 with
              newNameArgs := optArg :: (scanChunks rest2).newNameArgs }
        else
          { scanChunks rest2 with
              otherOptCount := (scanChunks rest2).otherOptCount + 1 }
    else if isFlagOpt arg then
      { scanChunks rest with
          otherOptCount := (scanChunks rest).otherOptCount + 1 }
    else ⟨0, 0, [], [], 0, true⟩

/-! ### Hash-map model lemmas -/

/-- Keys of the options map, in insertion order. -/
def keysOf (m : OptionsMap) : List String := m.map (fun kv => kv.1)

theorem hmContainsKey_eq_true_iff {m : OptionsMap} {k : String} :
    hmContainsKey m k = true ↔ ∃ kv, kv ∈ m ∧ kv.1 = k := by
  simp [hmContainsKey]

theorem hmContainsKey_eq_false_iff {m : OptionsMap} {k : String} :
    hmContainsKey m k = false ↔ ∀ kv ∈ m, ¬ kv.1 = k := by
  simp [hmContainsKey]

theorem hmContainsKey_of_lookup {m : OptionsMap} {k : String} {w}
    (h : hmLookup m k = some w) : hmContainsKey m k = true := by
  unfold hmLookup at h
  rcases hf : m.find? (fun kv => kv.1 == k) with _ | kv
  · rw [hf] at h
    exact Option.noConfusion h
  · have hp := List.find?_some hf
    exact List.any_eq_true.mpr ⟨kv, List.mem_of_find?_eq_some hf, hp⟩

theorem hmLookup_eq_some_of_contains_valued {m : OptionsMap} {k : String}
    (hc : hmContainsKey m k = true)
    (hv : ∀ kv ∈ m, kv.1 = k → ∃ v, kv.2 = some v) :
    ∃ v, hmLookup m k = some (some v) := by
  rcases hf : m.find? (fun kv => kv.1 == k) with _ | kv
  · rw [List.find?_eq_none] at hf
    obtain ⟨kv, hkv, hk⟩ := hmContainsKey_eq_true_iff.mp hc
    exact absurd (by simpa using hk) (hf kv hkv)
  · have hp := List.find?_some hf
    obtain ⟨v, hv2⟩ := hv kv (List.mem_of_find?_eq_some hf) (by simpa using hp)
    exact ⟨v, by simp [hmLookup, hf, hv2]⟩

theorem hmLookup_append_ne {m : OptionsMap} {k k' : String}
    {v : Option String} (h : ¬ k = k') :
    hmLookup (m ++ [(k, v)]) k' = hmLookup m k' := by
  unfold hmLookup
  rw [List.find?_append]
  have hsingle : List.find? (fun kv => kv.1 == k') [(k, v)] = none := by
    have hb : (k == k') = false := by
      simpa using h
    simp [List.find?, hb]
  rw [hsingle, Option.or_none]

theorem hmLookup_append_self {m : OptionsMap} {k : String} {v : Option String}
    (h : hmContainsKey m k = false) :
    hmLookup (m ++ [(k, v)]) k = some v := by
  unfold hmLookup
  rw [List.find?_append]
  have hf : m.find? (fun kv => kv.1 == k) = none := by
    rw [List.find?_eq_none]
    intro kv hkv
    simpa using hmContainsKey_eq_false_iff.mp h kv hkv
  rw [hf, Option.none_or]
  simp [List.find?]

theorem hmContainsKey_append {m : OptionsMap} {k k' : String}
    {v : Option String} :
    hmContainsKey (m ++ [(k, v)]) k' = (hmContainsKey m k' || k == k') := by
  simp [hmContainsKey, List.any_append]

theorem keysOf_append {m : OptionsMap} {k : String} {v : Option String} :
    keysOf (m ++ [(k, v)]) = keysOf m ++ [k] := by
  simp [keysOf]

theorem mem_keysOf_iff {m : OptionsMap} {k : String} :
    k ∈ keysOf m ↔ ∃ kv, kv ∈ m ∧ kv.1 = k := by
  simp [keysOf, List.mem_map, eq_comm]

theorem nodup_keysOf_append {m : OptionsMap} {k : String} {v : Option String}
    (hnd : (keysOf m).Nodup) (h : hmContainsKey m k = false) :
    (keysOf (m ++ [(k, v)])).Nodup := by
  rw [keysOf_append]
  have hk : k ∉ keysOf m := by
    intro hc
    obtain ⟨kv, hkv, hkk⟩ := mem_keysOf_iff.mp hc
    exact hmContainsKey_eq_false_iff.mp h kv hkv hkk
  simp [List.nodup_append, hnd, hk]

theorem exists_mem_hmInsert (m : OptionsMap) (k : String) (v : Option String) :
    ∃ kv ∈ hmInsert m k v, kv.1 = k := by
  unfold hmInsert
  split
  case isTrue h =>
    obtain ⟨kv0, hkv0, hk⟩ := hmContainsKey_eq_true_iff.mp h
    refine ⟨(k, v), List.mem_map.mpr ⟨kv0, hkv0, by simp [hk]⟩, rfl⟩
  case isFalse h =>
    exact ⟨(k, v), by simp, rfl⟩

theorem mem_hmInsert_cases {m : OptionsMap} {k : String} {v : Option String}
    {kv} (h : kv ∈ hmInsert m k v) : kv ∈ m ∨ kv = (k, v) := by
  unfold hmInsert at h
  split at h
  · obtain ⟨kv0, hkv0, heq⟩ := List.mem_map.mp h
    by_cases hk : kv0.1 = k
    · right
      rw [← heq]
      simp [hk]
    · left
      rw [← heq]
      simpa [hk] using hkv0
  · rcases List.mem_append.mp h with h1 | h1
    · exact Or.inl h1
    · right
      simpa using h1

theorem keysOf_hmInsert_of_contains {m : OptionsMap} {k : String}
    {v : Option String} (h : hmContainsKey m k = true) :
    keysOf (hmInsert m k v) = keysOf m := by
  unfold hmInsert
  rw [if_pos h]
  unfold keysOf
  rw [List.map_map]
  apply List.map_congr_left
  intro kv _
  by_cases hk : kv.1 = k
  · simp [Function.comp, hk]
  · simp [Function.comp, hk]

theorem keys_length_two {l : List String} {a b : String} (hnd : l.Nodup)
    (hsub : ∀ x ∈ l, x = a ∨ x = b) (ha : a ∈ l) (hb : b ∈ l)
    (hab : ¬ a = b) : l.length = 2 := by
  have hset : l.toFinset = {a, b} := by
    apply Finset.ext
    intro x
    simp only [List.mem_toFinset, Finset.mem_insert, Finset.mem_singleton]
    constructor
    · exact hsub x
    · rintro (rfl | rfl) <;> assumption
  rw [← List.toFinset_card_of_nodup hnd, hset, Finset.card_pair hab]

/-! ### Acceptance characterisation for the rename-project subcommand -/

/-- Compatibility of the subcommand tally of the remaining tokens with
the parser's current command state, on a run that ends accepting
`rename-project`. -/
def cmdStatsOk : Option Command → ChunkStats → Prop
  | none, S => S.rpCount = 1 ∧ S.otherSubCount = 0
  | some .renameProject, S => S.rpCount = 0 ∧ S.otherSubCount = 0
  | some _, _ => False

/-- Relation between the chunk tally of the remaining tokens, the
parser state, and the two accepted option values, holding exactly when
the run from this state accepts `rename-project` with values `p`/`n`. -/
def statsOk (S : ChunkStats) (command : Option Command)
    (options : OptionsMap) (p n : String) : Prop :=
  S.bad = false ∧ S.otherOptCount = 0 ∧ cmdStatsOk command S ∧
  (∀ kv ∈ options, kv.1 = "--project" ∨ kv.1 = "--new-name") ∧
  ((hmLookup options "--project" = some (some p) ∧ S.projArgs = []) ∨
    (hmContainsKey options "--project" = false ∧ S.projArgs = [p])) ∧
  ((hmLookup options "--new-name" = some (some n) ∧ S.newNameArgs = []) ∨
    (hmContainsKey options "--new-name" = false ∧ S.newNameArgs = [n]))

/-- What the claim asserts about the options map an accepting run
returns: exactly the two values, nothing else. -/
def finalOptsOk (options : OptionsMap) (p n : String) : Prop :=
  hmLookup options "--project" = some (some p) ∧
  hmLookup options "--new-name" = some (some n) ∧
  options.length = 2

/-- Invariant of the parser's options state at every reachable point:
keys are unique and value-taking keys carry values. -/
def stateInv (options : OptionsMap) : Prop :=
  (keysOf options).Nodup ∧
  ∀ kv ∈ options, (kv.1 = "--project" ∨ kv.1 = "--new-name") →
    ∃ v, kv.2 = some v

theorem cmdStatsOk_some_ne {c : Command} {S : ChunkStats}
    (h : ¬ c = Command.renameProject) : ¬ cmdStatsOk (some c) S := by
  cases c
  · exact absurd rfl h
  all_goals exact fun hc => hc

theorem subcommandOf?_eq_some_cases {arg : String} {c : Command}
    (h : subcommandOf? arg = some c) :
    (arg = "rename-project" ∧ c = .renameProject) ∨
    (arg = "rename-plugin" ∧ c = .renamePlugin) ∨
    (arg = "rename-target" ∧ c = .renameTarget) ∨
    (arg = "rename-module" ∧ c = .renameModule) ∨
    (arg = "wizard" ∧ c = .wizard) := by
  unfold subcommandOf? at h
  split at h
  case isTrue h1 =>
    exact Or.inl ⟨by simpa using h1, by injection h with h2; exact h2.symm⟩
  case isFalse h1 =>
    split at h
    case isTrue h2 =>
      exact Or.inr (Or.inl
        ⟨by simpa using h2, by injection h with h3; exact h3.symm⟩)
    case isFalse h2 =>
      split at h
      case isTrue h3 =>
        exact Or.inr (Or.inr (Or.inl
          ⟨by simpa using h3, by injection h with h4; exact h4.symm⟩))
      case isFalse h3 =>
        split at h
        case isTrue h4 =>
          exact Or.inr (Or.inr (Or.inr (Or.inl
            ⟨by simpa using h4, by injection h with h5; exact h5.symm⟩)))
        case isFalse h4 =>
          split at h
          case isTrue h5 =>
            exact Or.inr (Or.inr (Or.inr (Or.inr
              ⟨by simpa using h5, by injection h with h6; exact h6.symm⟩)))
          case isFalse h5 =>
            exact Option.noConfusion h

theorem isValuedOpt_eq_true_cases {arg : String}
    (h : isValuedOpt arg = true) :
    arg = "--project" ∨ arg = "--plugin" ∨ arg = "--module" ∨
      arg = "--target" ∨ arg = "--new-name" := by
  unfold isValuedOpt at h
  simp at h
  tauto

theorem isFlagOpt_eq_true_cases {arg : String} (h : isFlagOpt arg = true) :
    arg = "--help" ∨ arg = "--version" := by
  unfold isFlagOpt at h
  simpa using h

theorem parseLoop_cons_sub {arg : String} {c : Command}
    (hsub : subcommandOf? arg = some c) (rest : List String)
    (command : Option Command) (options : OptionsMap) :
    parseLoop (arg :: rest) command options =
      if command.isSome then
        .error (none, "command cannot be specified more than once")
      else parseLoop rest (some c) options := by
  rcases subcommandOf?_eq_some_cases hsub with
    ⟨rfl, rfl⟩ | ⟨rfl, rfl⟩ | ⟨rfl, rfl⟩ | ⟨rfl, rfl⟩ | ⟨rfl, rfl⟩ <;>
    (conv_lhs => unfold parseLoop) <;> simp

theorem parseLoop_cons_valued {arg : String} (hval : isValuedOpt arg = true)
    (rest : List String) (command : Option Command) (options : OptionsMap) :
    parseLoop (arg :: rest) command options =
      if hmContainsKey options arg then
        .error (command,
          "option " ++ arg ++ " cannot be specified more than once")
      else
        match rest with
        | [] => .error (command, "missing argument for option " ++ arg)
        | optArg :: rest2 =>
          parseLoop rest2 command (hmInsert options arg (some optArg)) := by
  rcases isValuedOpt_eq_true_cases hval with rfl | rfl | rfl | rfl | rfl <;>
    (conv_lhs => unfold parseLoop) <;> simp [isValuedOpt]

theorem parseLoop_cons_flag {arg : String} (hflag : isFlagOpt arg = true)
    (rest : List String) (command : Option Command) (options : OptionsMap) :
    parseLoop (arg :: rest) command options =
      parseLoop rest command (hmInsert options arg none) := by
  rcases isFlagOpt_eq_true_cases hflag with rfl | rfl <;>
    (conv_lhs => unfold parseLoop) <;> simp [isValuedOpt, isFlagOpt]

theorem parseLoop_cons_unknown {arg : String}
    (hsub : subcommandOf? arg = none) (hval : isValuedOpt arg = false)
    (hflag : isFlagOpt arg = false) (rest : List String)
    (command : Option Command) (options : OptionsMap) :
    parseLoop (arg :: rest) command options =
      .error (command, "unknown argument provided: " ++ arg) := by
  unfold subcommandOf? at hsub
  split at hsub
  case isTrue h => exact Option.noConfusion hsub
  case isFalse h1 =>
    split at hsub
    case isTrue h => exact Option.noConfusion hsub
    case isFalse h2 =>
      split at hsub
      case isTrue h => exact Option.noConfusion hsub
      case isFalse h3 =>
        split at hsub
        case isTrue h => exact Option.noConfusion hsub
        case isFalse h4 =>
          split at hsub
          case isTrue h => exact Option.noConfusion hsub
          case isFalse h5 =>
            conv_lhs => unfold parseLoop
            have e1 : (arg == "rename-project") = false := by simpa using h1
            have e2 : (arg == "rename-plugin") = false := by simpa using h2
            have e3 : (arg == "rename-target") = false := by simpa using h3
            have e4 : (arg == "rename-module") = false := by simpa using h4
            have e5 : (arg == "wizard") = false := by simpa using h5
            simp [e1, e2, e3, e4, e5, hval, hflag]

theorem scanChunks_cons_rp {arg : String}
    (hsub : subcommandOf? arg = some .renameProject) (rest : List String) :
    scanChunks (arg :: rest) =
      { scanChunks rest with rpCount := (scanChunks rest).rpCount + 1 } := by
  rcases subcommandOf?_eq_some_cases hsub with
    ⟨rfl, h⟩ | ⟨rfl, h⟩ | ⟨rfl, h⟩ | ⟨rfl, h⟩ | ⟨rfl, h⟩
  · conv_lhs => unfold scanChunks
    simp [subcommandOf?]
  all_goals exact Command.noConfusion h

theorem scanChunks_cons_sub_ne {arg : String} {c : Command}
    (hsub : subcommandOf? arg = some c) (hc : ¬ c = .renameProject)
    (rest : List String) :
    scanChunks (arg :: rest) =
      { scanChunks rest with
          otherSubCount := (scanChunks rest).otherSubCount + 1 } := by
  rcases subcommandOf?_eq_some_cases hsub with
    ⟨rfl, rfl⟩ | ⟨rfl, rfl⟩ | ⟨rfl, rfl⟩ | ⟨rfl, rfl⟩ | ⟨rfl, rfl⟩
  · exact absurd rfl hc
  all_goals (conv_lhs => unfold scanChunks)
  all_goals simp [subcommandOf?]

theorem scanChunks_cons_valued_nil {arg : String}
    (hval : isValuedOpt arg = true) :
    scanChunks [arg] = ⟨0, 0, [], [], 0, true⟩ := by
  rcases isValuedOpt_eq_true_cases hval with rfl | rfl | rfl | rfl | rfl <;>
    (conv_lhs => unfold scanChunks) <;> simp [subcommandOf?, isValuedOpt]

theorem scanChunks_cons_valued_cons {arg : String}
    (hval : isValuedOpt arg = true) (optArg : String) (rest2 : List String) :
    scanChunks (arg :: optArg :: rest2) =
      (if arg == "--project" then
        { scanChunks rest2 with
            projArgs := optArg :: (scanChunks rest2).projArgs }
      else if arg == "--new-name" then
        { scanChunks rest2 with
            newNameArgs := optArg :: (scanChunks rest2).newNameArgs }
      else
        { scanChunks rest2 with
            otherOptCount := (scanChunks rest2).otherOptCount + 1 }) := by
  rcases isValuedOpt_eq_true_cases hval with rfl | rfl | rfl | rfl | rfl <;>
    (conv_lhs => unfold scanChunks) <;> simp [subcommandOf?, isValuedOpt]

theorem scanChunks_cons_flag {arg : String} (hsub : subcommandOf? arg = none)
    (hval : isValuedOpt arg = false) (hflag : isFlagOpt arg = true)
    (rest : List String) :
    scanChunks (arg :: rest) =
      { scanChunks rest with
          otherOptCount := (scanChunks rest).otherOptCount + 1 } := by
  rcases isFlagOpt_eq_true_cases hflag with rfl | rfl <;>
    (conv_lhs => unfold scanChunks) <;> simp [subcommandOf?, isValuedOpt, isFlagOpt]

theorem scanChunks_cons_unknown {arg : String}
    (hsub : subcommandOf? arg = none) (hval : isValuedOpt arg = false)
    (hflag : isFlagOpt arg = false) (rest : List String) :
    scanChunks (arg :: rest) = ⟨0, 0, [], [], 0, true⟩ := by
  conv_lhs => unfold scanChunks
  simp [hsub, hval, hflag]

theorem hmInsert_not_contains {m : OptionsMap} {k : String}
    {v : Option String} (h : hmContainsKey m k = false) :
    hmInsert m k v = m ++ [(k, v)] := by
  unfold hmInsert
  rw [h]
  simp

theorem scanChunks_nil : scanChunks [] = ⟨0, 0, [], [], 0, false⟩ := by
  conv_lhs => unfold scanChunks

theorem scanChunks_proj_cons (v : String) (rest2 : List String) :
    scanChunks ("--project" :: v :: rest2) =
      { scanChunks rest2 with
          projArgs := v :: (scanChunks rest2).projArgs } := by
  conv_lhs => unfold scanChunks
  simp [subcommandOf?, isValuedOpt]

theorem scanChunks_nn_cons (v : String) (rest2 : List String) :
    scanChunks ("--new-name" :: v :: rest2) =
      { scanChunks rest2 with
          newNameArgs := v :: (scanChunks rest2).newNameArgs } := by
  conv_lhs => unfold scanChunks
  simp [subcommandOf?, isValuedOpt]

theorem scanChunks_valued_other_cons {arg : String}
    (h : arg = "--plugin" ∨ arg = "--module" ∨ arg = "--target")
    (v : String) (rest2 : List String) :
    scanChunks (arg :: v :: rest2) =
      { scanChunks rest2 with
          otherOptCount := (scanChunks rest2).otherOptCount + 1 } := by
  rcases h with rfl | rfl | rfl <;> (conv_lhs => unfold scanChunks) <;>
    simp [subcommandOf?, isValuedOpt]

theorem finishParse_rp_elim {command : Option Command} {options finalOpts}
    (h : finishParse command options = .ok (some .renameProject, finalOpts)) :
    command = some .renameProject ∧ options = finalOpts ∧
      validate_rename_project_options options = .ok () := by
  unfold finishParse at h
  cases hv : validate_command_options command options with
  | error e =>
    rw [hv] at h
    exact Except.noConfusion h
  | ok u =>
    rw [hv] at h
    injection h with h2
    rw [Prod.mk.injEq] at h2
    obtain ⟨hc, ho⟩ := h2
    subst hc
    refine ⟨rfl, ho, ?_⟩
    rw [show validate_rename_project_options options =
      validate_command_options (some Command.renameProject) options from rfl,
      hv]

theorem validate_rp_ok_elim {options : OptionsMap}
    (h : validate_rename_project_options options = .ok ()) :
    hmContainsKey options "--project" = true ∧
      hmContainsKey options "--new-name" = true ∧
      ∀ kv ∈ options, kv.1 = "--project" ∨ kv.1 = "--new-name" := by
  unfold validate_rename_project_options at h
  cases hb1 : hmContainsKey options "--project" with
  | false =>
    rw [hb1] at h
    simp at h
  | true =>
    rw [hb1] at h
    cases hb2 : hmContainsKey options "--new-name" with
    | false =>
      rw [hb2] at h
      simp at h
    | true =>
      rw [hb2] at h
      simp only [Bool.not_true, Bool.false_eq_true, if_false] at h
      cases hf : options.find?
          (fun kv => !(kv.1 == "--project" || kv.1 == "--new-name")) with
      | some kv =>
        rw [hf] at h
        exact Except.noConfusion h
      | none =>
        refine ⟨rfl, rfl, fun kv hkv => ?_⟩
        have h4 := List.find?_eq_none.mp hf kv hkv
        simp at h4
        tauto

theorem validate_rp_ok_intro {options : OptionsMap}
    (h1 : hmContainsKey options "--project" = true)
    (h2 : hmContainsKey options "--new-name" = true)
    (h3 : ∀ kv ∈ options, kv.1 = "--project" ∨ kv.1 = "--new-name") :
    validate_rename_project_options options = .ok () := by
  have hf : options.find?
      (fun kv => !(kv.1 == "--project" || kv.1 == "--new-name")) = none := by
    rw [List.find?_eq_none]
    intro kv hkv
    rcases h3 kv hkv with hk | hk <;> simp [hk]
  unfold validate_rename_project_options
  rw [h1, h2]
  simp only [Bool.not_true, Bool.false_eq_true, if_false]
  rw [hf]

theorem opts_length_two {options : OptionsMap}
    (hnd : (keysOf options).Nodup)
    (hkeys : ∀ kv ∈ options, kv.1 = "--project" ∨ kv.1 = "--new-name")
    (h1 : hmContainsKey options "--project" = true)
    (h2 : hmContainsKey options "--new-name" = true) :
    options.length = 2 := by
  have hmem1 : "--project" ∈ keysOf options := by
    obtain ⟨kv, hkv, hk⟩ := hmContainsKey_eq_true_iff.mp h1
    exact mem_keysOf_iff.mpr ⟨kv, hkv, hk⟩
  have hmem2 : "--new-name" ∈ keysOf options := by
    obtain ⟨kv, hkv, hk⟩ := hmContainsKey_eq_true_iff.mp h2
    exact mem_keysOf_iff.mpr ⟨kv, hkv, hk⟩
  have hsub : ∀ x ∈ keysOf options, x = "--project" ∨ x = "--new-name" := by
    intro x hx
    obtain ⟨kv, hkv, hk⟩ := mem_keysOf_iff.mp hx
    subst hk
    exact hkeys kv hkv
  have hlen := keys_length_two hnd hsub hmem1 hmem2 (by decide)
  rw [keysOf, List.length_map] at hlen
  exact hlen

theorem parseLoop_nil_fwd {command : Option Command} {options finalOpts}
    (hinv : stateInv options)
    (h : parseLoop [] command options = .ok (some .renameProject, finalOpts)) :
    ∃ p n, statsOk (scanChunks []) command options p n ∧
      finalOptsOk finalOpts p n := by
  obtain ⟨hc, ho, hval⟩ := finishParse_rp_elim h
  subst hc
  subst ho
  obtain ⟨h1, h2, hkeys⟩ := validate_rp_ok_elim hval
  obtain ⟨p, hp⟩ := hmLookup_eq_some_of_contains_valued h1
    (fun kv hkv hk => hinv.2 kv hkv (Or.inl hk))
  obtain ⟨n, hn⟩ := hmLookup_eq_some_of_contains_valued h2
    (fun kv hkv hk => hinv.2 kv hkv (Or.inr hk))
  rw [scanChunks_nil]
  exact ⟨p, n, ⟨rfl, rfl, ⟨rfl, rfl⟩, hkeys, Or.inl ⟨hp, rfl⟩,
      Or.inl ⟨hn, rfl⟩⟩,
    hp, hn, opts_length_two hinv.1 hkeys h1 h2⟩

theorem parseLoop_nil_bwd {command : Option Command} {options : OptionsMap}
    {p n : String} (hnd : (keysOf options).Nodup)
    (hstats : statsOk (scanChunks []) command options p n) :
    ∃ finalOpts,
      parseLoop [] command options = .ok (some .renameProject, finalOpts) ∧
      finalOptsOk finalOpts p n := by
  rw [scanChunks_nil] at hstats
  obtain ⟨hb, hoz, hcmd, hkeys, hproj, hnn⟩ := hstats
  match command with
  | none => exact absurd hcmd.1 (by decide)
  | some .renamePlugin => exact hcmd.elim
  | some .renameTarget => exact hcmd.elim
  | some .renameModule => exact hcmd.elim
  | some .wizard => exact hcmd.elim
  | some .renameProject =>
    rcases hproj with ⟨hp, _⟩ | ⟨_, habs⟩
    · rcases hnn with ⟨hn, _⟩ | ⟨_, habs2⟩
      · have h1 := hmContainsKey_of_lookup hp
        have h2 := hmContainsKey_of_lookup hn
        have hvalok : validate_command_options (some .renameProject) options =
            .ok () := validate_rp_ok_intro h1 h2 hkeys
        refine ⟨options, ?_, hp, hn, opts_length_two hnd hkeys h1 h2⟩
        show finishParse (some .renameProject) options = _
        unfold finishParse
        rw [hvalok]
      · exact List.noConfusion habs2
    · exact List.noConfusion habs

theorem cmdStatsOk_congr {c : Option Command} {S S' : ChunkStats}
    (hrp : S.rpCount = S'.rpCount)
    (hsub : S.otherSubCount = S'.otherSubCount) :
    cmdStatsOk c S ↔ cmdStatsOk c S' := by
  match c with
  | none => simp [cmdStatsOk, hrp, hsub]
  | some c' => cases c' <;> simp [cmdStatsOk, hrp, hsub]

theorem stateInv_hmInsert_flag {options : OptionsMap} {arg : String}
    (hinv : stateInv options) (hne1 : ¬ arg = "--project")
    (hne2 : ¬ arg = "--new-name") :
    stateInv (hmInsert options arg none) := by
  constructor
  · cases hcont : hmContainsKey options arg with
    | true =>
      rw [keysOf_hmInsert_of_contains hcont]
      exact hinv.1
    | false =>
      rw [hmInsert_not_contains hcont]
      exact nodup_keysOf_append hinv.1 hcont
  · intro kv hkv hor
    rcases mem_hmInsert_cases hkv with hmem | heq
    · exact hinv.2 kv hmem hor
    · subst heq
      rcases hor with h | h
      · exact absurd h hne1
      · exact absurd h hne2

/-- Forward direction of the characterisation: an accepting
`rename-project` run of the token loop forces the chunk tally of the
remaining tokens to be compatible with the state, and pins the returned
options map. -/
theorem parseLoop_fwd (fuel : Nat) :
    ∀ (tokens : List String), tokens.length ≤ fuel →
    ∀ (command : Option Command) (options : OptionsMap), stateInv options →
    ∀ finalOpts,
      parseLoop tokens command options = .ok (some .renameProject, finalOpts) →
    ∃ p n, statsOk (scanChunks tokens) command options p n ∧
      finalOptsOk finalOpts p n := by
  induction fuel with
  | zero =>
    intro tokens hlen command options hinv finalOpts hparse
    match tokens with
    | [] => exact parseLoop_nil_fwd hinv hparse
    | _ :: _ => simp at hlen
  | succ fuel ih =>
    intro tokens hlen command options hinv finalOpts hparse
    match tokens with
    | [] => exact parseLoop_nil_fwd hinv hparse
    | arg :: rest =>
      have hlen2 : rest.length ≤ fuel := by
        simp only [List.length_cons] at hlen
        omega
      cases hsub : subcommandOf? arg with
      | some c =>
        rw [parseLoop_cons_sub hsub] at hparse
        match command with
        | some c0 => simp at hparse
        | none =>
          simp only [Option.isSome_none, Bool.false_eq_true, if_false]
            at hparse
          obtain ⟨p, n, hstats, hfo⟩ :=
            ih rest hlen2 (some c) options hinv finalOpts hparse
          by_cases hc : c = Command.renameProject
          · subst hc
            rw [scanChunks_cons_rp hsub]
            obtain ⟨hb, ho, hcmd, hkeys, hp, hn⟩ := hstats
            exact ⟨p, n, ⟨hb, ho, ⟨by simp [hcmd.1], hcmd.2⟩, hkeys, hp, hn⟩,
              hfo⟩
          · exact absurd hstats.2.2.1 (cmdStatsOk_some_ne hc)
      | none =>
        cases hval : isValuedOpt arg with
        | true =>
          rw [parseLoop_cons_valued hval] at hparse
          cases hcont : hmContainsKey options arg with
          | true =>
            rw [hcont] at hparse
            simp at hparse
          | false =>
            rw [hcont] at hparse
            simp only [Bool.false_eq_true, if_false] at hparse
            cases rest with
            | nil => simp at hparse
            | cons v rest2 =>
              have hparse2 : parseLoop rest2 command
                  (hmInsert options arg (some v)) =
                  .ok (some .renameProject, finalOpts) := hparse
              rw [hmInsert_not_contains hcont] at hparse2
              have hlen3 : rest2.length ≤ fuel := by
                simp only [List.length_cons] at hlen
                omega
              have hinv' : stateInv (options ++ [(arg, some v)]) := by
                constructor
                · exact nodup_keysOf_append hinv.1 hcont
                · intro kv hkv _
                  rcases List.mem_append.mp hkv with hmem | hmem
                  · exact hinv.2 kv hmem ‹_›
                  · simp only [List.mem_singleton] at hmem
                    subst hmem
                    exact ⟨v, rfl⟩
              obtain ⟨p, n, hstats, hfo⟩ :=
                ih rest2 hlen3 command (options ++ [(arg, some v)]) hinv'
                  finalOpts hparse2
              obtain ⟨hb, ho, hcmd, hkeys, hp, hn⟩ := hstats
              rcases isValuedOpt_eq_true_cases hval with
                rfl | rfl | rfl | rfl | rfl
              · -- arg = "--project"
                rw [scanChunks_proj_cons v rest2]
                have hcont' : hmContainsKey
                    (options ++ [("--project", some v)]) "--project" =
                    true := by
                  rw [hmContainsKey_append]
                  simp
                rcases hp with ⟨hpl, hpargs⟩ | ⟨hcf, _⟩
                swap
                · rw [hcont'] at hcf
                  exact Bool.noConfusion hcf
                have hlook : hmLookup (options ++ [("--project", some v)])
                    "--project" = some (some v) :=
                  hmLookup_append_self hcont
                have hpv : p = v := by
                  rw [hlook] at hpl
                  simpa using hpl.symm
                have hcmd2 : cmdStatsOk command
                    { scanChunks rest2 with
                        projArgs := v :: (scanChunks rest2).projArgs } :=
                  (cmdStatsOk_congr (by rfl) (by rfl)).mpr hcmd
                refine ⟨p, n,
                  ⟨hb, ho, hcmd2,
                    fun kv hkv => hkeys kv (List.mem_append_left _ hkv),
                    Or.inr ⟨hcont, ?_⟩, ?_⟩, hfo⟩
                · show v :: (scanChunks rest2).projArgs = [p]
                  rw [hpargs, hpv]
                · rcases hn with ⟨hl, hr⟩ | ⟨hcf, hr⟩
                  · refine Or.inl ⟨?_, hr⟩
                    rw [← hmLookup_append_ne
                      (by decide : ¬ ("--project" : String) = "--new-name")]
                    exact hl
                  · refine Or.inr ⟨?_, hr⟩
                    rw [hmContainsKey_append] at hcf
                    simpa using hcf
              · -- arg = "--plugin"
                have hmem : ("--plugin", some v) ∈
                    options ++ [("--plugin", some v)] :=
                  List.mem_append_right _ (by simp)
                have hor : ("--plugin" : String) = "--project" ∨
                    ("--plugin" : String) = "--new-name" := hkeys _ hmem
                exact absurd hor (by decide)
              · -- arg = "--module"
                have hmem : ("--module", some v) ∈
                    options ++ [("--module", some v)] :=
                  List.mem_append_right _ (by simp)
                have hor : ("--module" : String) = "--project" ∨
                    ("--module" : String) = "--new-name" := hkeys _ hmem
                exact absurd hor (by decide)
              · -- arg = "--target"
                have hmem : ("--target", some v) ∈
                    options ++ [("--target", some v)] :=
                  List.mem_append_right _ (by simp)
                have hor : ("--target" : String) = "--project" ∨
                    ("--target" : String) = "--new-name" := hkeys _ hmem
                exact absurd hor (by decide)
              · -- arg = "--new-name"
                rw [scanChunks_nn_cons v rest2]
                have hcont' : hmContainsKey
                    (options ++ [("--new-name", some v)]) "--new-name" =
                    true := by
                  rw [hmContainsKey_append]
                  simp
                rcases hn with ⟨hnl, hnargs⟩ | ⟨hcf, _⟩
                swap
                · rw [hcont'] at hcf
                  exact Bool.noConfusion hcf
                have hlook : hmLookup (options ++ [("--new-name", some v)])
                    "--new-name" = some (some v) :=
                  hmLookup_append_self hcont
                have hnv : n = v := by
                  rw [hlook] at hnl
                  simpa using hnl.symm
                have hcmd2 : cmdStatsOk command
                    { scanChunks rest2 with
                        newNameArgs := v :: (scanChunks rest2).newNameArgs } :=
                  (cmdStatsOk_congr (by rfl) (by rfl)).mpr hcmd
                refine ⟨p, n,
                  ⟨hb, ho, hcmd2,
                    fun kv hkv => hkeys kv (List.mem_append_left _ hkv),
                    ?_, Or.inr ⟨hcont, ?_⟩⟩, hfo⟩
                · rcases hp with ⟨hl, hr⟩ | ⟨hcf, hr⟩
                  · refine Or.inl ⟨?_, hr⟩
                    rw [← hmLookup_append_ne
                      (by decide : ¬ ("--new-name" : String) = "--project")]
                    exact hl
                  · refine Or.inr ⟨?_, hr⟩
                    rw [hmContainsKey_append] at hcf
                    simpa using hcf
                · show v :: (scanChunks rest2).newNameArgs = [n]
                  rw [hnargs, hnv]
        | false =>
          cases hflag : isFlagOpt arg with
          | true =>
            rw [parseLoop_cons_flag hflag] at hparse
            rcases isFlagOpt_eq_true_cases hflag with rfl | rfl
            · have hinv' := stateInv_hmInsert_flag hinv
                (by decide : ¬ ("--help" : String) = "--project")
                (by decide : ¬ ("--help" : String) = "--new-name")
              obtain ⟨p, n, hstats, _⟩ :=
                ih rest hlen2 command (hmInsert options "--help" none) hinv'
                  finalOpts hparse
              obtain ⟨kv, hkv, hk1⟩ := exists_mem_hmInsert options "--help" none
              have hor := hstats.2.2.2.1 kv hkv
              rw [hk1] at hor
              exact absurd hor (by decide)
            · have hinv' := stateInv_hmInsert_flag hinv
                (by decide : ¬ ("--version" : String) = "--project")
                (by decide : ¬ ("--version" : String) = "--new-name")
              obtain ⟨p, n, hstats, _⟩ :=
                ih rest hlen2 command (hmInsert options "--version" none)
                  hinv' finalOpts hparse
              obtain ⟨kv, hkv, hk1⟩ :=
                exists_mem_hmInsert options "--version" none
              have hor := hstats.2.2.2.1 kv hkv
              rw [hk1] at hor
              exact absurd hor (by decide)
          | false =>
            rw [parseLoop_cons_unknown hsub hval hflag] at hparse
            exact Except.noConfusion hparse

theorem parseLoop_cons_valued_go {arg : String} {options : OptionsMap}
    (hval : isValuedOpt arg = true)
    (hcont : hmContainsKey options arg = false) (v : String)
    (rest2 : List String) (command : Option Command) :
    parseLoop (arg :: v :: rest2) command options =
      parseLoop rest2 command (options ++ [(arg, some v)]) := by
  rw [parseLoop_cons_valued hval, hcont]
  simp only [Bool.false_eq_true, if_false]
  show parseLoop rest2 command (hmInsert options arg (some v)) = _
  rw [hmInsert_not_contains hcont]

/-- Backward direction of the characterisation: a compatible chunk tally
forces the token loop to accept `rename-project` with the tallied option
values. -/
theorem parseLoop_bwd (fuel : Nat) :
    ∀ (tokens : List String), tokens.length ≤ fuel →
    ∀ (command : Option Command) (options : OptionsMap),
      (keysOf options).Nodup →
    ∀ p n, statsOk (scanChunks tokens) command options p n →
    ∃ finalOpts,
      parseLoop tokens command options = .ok (some .renameProject, finalOpts) ∧
      finalOptsOk finalOpts p n := by
  induction fuel with
  | zero =>
    intro tokens hlen command options hnd p n hstats
    match tokens with
    | [] => exact parseLoop_nil_bwd hnd hstats
    | _ :: _ => simp at hlen
  | succ fuel ih =>
    intro tokens hlen command options hnd p n hstats
    match tokens with
    | [] => exact parseLoop_nil_bwd hnd hstats
    | arg :: rest =>
      have hlen2 : rest.length ≤ fuel := by
        simp only [List.length_cons] at hlen
        omega
      cases hsub : subcommandOf? arg with
      | some c =>
        by_cases hc : c = Command.renameProject
        · subst hc
          rw [scanChunks_cons_rp hsub] at hstats
          obtain ⟨hb, ho, hcmd, hkeys, hp, hn⟩ := hstats
          match command with
          | some Command.renameProject =>
            exact absurd hcmd.1 (Nat.succ_ne_zero _)
          | some Command.renamePlugin => exact hcmd.elim
          | some Command.renameTarget => exact hcmd.elim
          | some Command.renameModule => exact hcmd.elim
          | some Command.wizard => exact hcmd.elim
          | none =>
            have hrp0 : (scanChunks rest).rpCount = 0 :=
              Nat.succ_injective hcmd.1
            have hstats2 : statsOk (scanChunks rest)
                (some Command.renameProject) options p n :=
              ⟨hb, ho, ⟨hrp0, hcmd.2⟩, hkeys, hp, hn⟩
            obtain ⟨fo, hrun, hfo⟩ :=
              ih rest hlen2 (some Command.renameProject) options hnd p n
                hstats2
            refine ⟨fo, ?_, hfo⟩
            rw [parseLoop_cons_sub hsub]
            simpa using hrun
        · rw [scanChunks_cons_sub_ne hsub hc] at hstats
          obtain ⟨hb, ho, hcmd, _⟩ := hstats
          match command with
          | none => exact absurd hcmd.2 (Nat.succ_ne_zero _)
          | some Command.renameProject =>
            exact absurd hcmd.2 (Nat.succ_ne_zero _)
          | some Command.renamePlugin => exact hcmd.elim
          | some Command.renameTarget => exact hcmd.elim
          | some Command.renameModule => exact hcmd.elim
          | some Command.wizard => exact hcmd.elim
      | none =>
        cases hval : isValuedOpt arg with
        | true =>
          cases rest with
          | nil =>
            rw [scanChunks_cons_valued_nil hval] at hstats
            exact Bool.noConfusion hstats.1
          | cons v rest2 =>
            have hlen3 : rest2.length ≤ fuel := by
              simp only [List.length_cons] at hlen
              omega
            rcases isValuedOpt_eq_true_cases hval with
              rfl | rfl | rfl | rfl | rfl
            · -- arg = "--project"
              rw [scanChunks_proj_cons v rest2] at hstats
              obtain ⟨hb, ho, hcmd, hkeys, hp, hn⟩ := hstats
              rcases hp with ⟨_, habs⟩ | ⟨hcont, hargs⟩
              · have habs2 : v :: (scanChunks rest2).projArgs = [] := habs
                exact List.noConfusion habs2
              · have hargs2 : v :: (scanChunks rest2).projArgs = [p] := hargs
                injection hargs2 with hv2 hargs3
                subst hv2
                have hcmd2 : cmdStatsOk command (scanChunks rest2) :=
                  (cmdStatsOk_congr (by rfl) (by rfl)).mp hcmd
                have hstats2 : statsOk (scanChunks rest2) command
                    (options ++ [("--project", some v)]) v n := by
                  refine ⟨hb, ho, hcmd2, ?_, Or.inl
                    ⟨hmLookup_append_self hcont, hargs3⟩, ?_⟩
                  · intro kv hkv
                    rcases List.mem_append.mp hkv with hmem | hmem
                    · exact hkeys kv hmem
                    · simp only [List.mem_singleton] at hmem
                      subst hmem
                      exact Or.inl rfl
                  · rcases hn with ⟨hl, hr⟩ | ⟨hcf, hr⟩
                    · refine Or.inl ⟨?_, hr⟩
                      rw [hmLookup_append_ne
                        (by decide : ¬ ("--project" : String) = "--new-name")]
                      exact hl
                    · refine Or.inr ⟨?_, hr⟩
                      rw [hmContainsKey_append]
                      simp [hcf]
                obtain ⟨fo, hrun, hfo⟩ :=
                  ih rest2 hlen3 command (options ++ [("--project", some v)])
                    (nodup_keysOf_append hnd hcont) v n hstats2
                refine ⟨fo, ?_, hfo⟩
                rw [parseLoop_cons_valued_go hval hcont]
                exact hrun
            · -- arg = "--plugin"
              rw [scanChunks_valued_other_cons (Or.inl rfl) v rest2] at hstats
              exact absurd hstats.2.1 (Nat.succ_ne_zero _)
            · -- arg = "--module"
              rw [scanChunks_valued_other_cons (Or.inr (Or.inl rfl)) v rest2]
                at hstats
              exact absurd hstats.2.1 (Nat.succ_ne_zero _)
            · -- arg = "--target"
              rw [scanChunks_valued_other_cons (Or.inr (Or.inr rfl)) v rest2]
                at hstats
              exact absurd hstats.2.1 (Nat.succ_ne_zero _)
            · -- arg = "--new-name"
              rw [scanChunks_nn_cons v rest2] at hstats
              obtain ⟨hb, ho, hcmd, hkeys, hp, hn⟩ := hstats
              rcases hn with ⟨_, habs⟩ | ⟨hcont, hargs⟩
              · have habs2 : v :: (scanChunks rest2).newNameArgs = [] := habs
                exact List.noConfusion habs2
              · have hargs2 : v :: (scanChunks rest2).newNameArgs = [n] := hargs
                injection hargs2 with hv2 hargs3
                subst hv2
                have hcmd2 : cmdStatsOk command (scanChunks rest2) :=
                  (cmdStatsOk_congr (by rfl) (by rfl)).mp hcmd
                have hstats2 : statsOk (scanChunks rest2) command
                    (options ++ [("--new-name", some v)]) p v := by
                  refine ⟨hb, ho, hcmd2, ?_, ?_, Or.inl
                    ⟨hmLookup_append_self hcont, hargs3⟩⟩
                  · intro kv hkv
                    rcases List.mem_append.mp hkv with hmem | hmem
                    · exact hkeys kv hmem
                    · simp only [List.mem_singleton] at hmem
                      subst hmem
                      exact Or.inr rfl
                  · rcases hp with ⟨hl, hr⟩ | ⟨hcf, hr⟩
                    · refine Or.inl ⟨?_, hr⟩
                      rw [hmLookup_append_ne
                        (by decide : ¬ ("--new-name" : String) = "--project")]
                      exact hl
                    · refine Or.inr ⟨?_, hr⟩
                      rw [hmContainsKey_append]
                      simp [hcf]
                obtain ⟨fo, hrun, hfo⟩ :=
                  ih rest2 hlen3 command (options ++ [("--new-name", some v)])
                    (nodup_keysOf_append hnd hcont) p v hstats2
                refine ⟨fo, ?_, hfo⟩
                rw [parseLoop_cons_valued_go hval hcont]
                exact hrun
        | false =>
          cases hflag : isFlagOpt arg with
          | true =>
            rw [scanChunks_cons_flag hsub hval hflag] at hstats
            exact absurd hstats.2.1 (Nat.succ_ne_zero _)
          | false =>
            rw [scanChunks_cons_unknown hsub hval hflag] at hstats
            exact Bool.noConfusion hstats.1

/-- C9: `parse_args` accepts an argument list with the `rename-project`
subcommand exactly when, reading the tokens after the program name as
greedy chunks, the subcommand occurs once, `--project` and `--new-name`
each occur exactly once with an argument, and no other option (or other
subcommand, or unknown token) occurs; on acceptance it returns
`Command::RenameProject` with exactly those two option values, and in
every other case it returns an error. -/
theorem C9_parse_args_rename_project (args : List String) :
    (∀ options,
      parse_args args = .ok (some .renameProject, options) →
      ∃ p n, scanChunks (args.drop 1) = ⟨1, 0, [p], [n], 0, false⟩ ∧
        hmLookup options "--project" = some (some p) ∧
        hmLookup options "--new-name" = some (some n) ∧
        options.length = 2) ∧
    (∀ p n, scanChunks (args.drop 1) = ⟨1, 0, [p], [n], 0, false⟩ →
      ∃ options,
        parse_args args = .ok (some .renameProject, options) ∧
        hmLookup options "--project" = some (some p) ∧
        hmLookup options "--new-name" = some (some n) ∧
        options.length = 2) := by
  constructor
  · intro options hok
    obtain ⟨p, n, hstats, hfo⟩ := parseLoop_fwd (args.drop 1).length
      (args.drop 1) le_rfl none [] ⟨List.nodup_nil, by simp⟩ options hok
    refine ⟨p, n, ?_, hfo.1, hfo.2.1, hfo.2.2⟩
    obtain ⟨hb, ho, hcmd, _, hp, hn⟩ := hstats
    rcases hp with ⟨hl, _⟩ | ⟨_, hpargs⟩
    · exact Option.noConfusion hl
    rcases hn with ⟨hl, _⟩ | ⟨_, hnargs⟩
    · exact Option.noConfusion hl
    rcases hsc : scanChunks (args.drop 1) with ⟨a, b, c, d, e2, f2⟩
    rw [hsc] at hb ho hcmd hpargs hnargs
    rw [ChunkStats.mk.injEq]
    exact ⟨hcmd.1, hcmd.2, hpargs, hnargs, ho, hb⟩
  · intro p n hstats0
    have hstats : statsOk (scanChunks (args.drop 1)) none [] p n := by
      rw [hstats0]
      exact ⟨rfl, rfl, ⟨rfl, rfl⟩, by simp, Or.inr ⟨rfl, rfl⟩,
        Or.inr ⟨rfl, rfl⟩⟩
    obtain ⟨fo, hrun, hfo⟩ := parseLoop_bwd (args.drop 1).length
      (args.drop 1) le_rfl none [] List.nodup_nil p n hstats
    exact ⟨fo, hrun, hfo.1, hfo.2.1, hfo.2.2⟩

/-- Witness for C9 at the argument list of the source's own unit test:
`renom rename-project --project test/Code --new-name Codex`. -/
theorem C9_witness :
    ∃ options,
      parse_args ["renom", "rename-project", "--project", "test/Code",
        "--new-name", "Codex"] = .ok (some .renameProject, options) ∧
      hmLookup options "--project" = some (some "test/Code") ∧
      hmLookup options "--new-name" = some (some "Codex") ∧
      options.length = 2 :=
  (C9_parse_args_rename_project ["renom", "rename-project", "--project",
    "test/Code", "--new-name", "Codex"]).2 "test/Code" "Codex" (by decide)

end Renom

